import Mathlib

/-!
Verification development for the GRANTED grant-extraction pipeline.

The repository contains two sibling pipeline scripts,
`extract-to-csv/extract_grants_to_csv.py` (called "v1" below) and
`extract-to-csv-model2/extract_grants_to_csv.py` (called "model2" below).
Python strings are modelled as `List Char`; Python `dict` payloads are
modelled as structures holding exactly the fields the functions under
study read, with `Option` for possibly-missing/NULL entries; Python
truthiness is modelled explicitly (`pyTruthyStr`, `pyTruthyNum`).
-/

abbrev Str := List Char

/-- Double-quote character. -/
def dq : Char := Char.ofNat 34

/-- Backslash character. -/
def bsl : Char := Char.ofNat 92

/-- Opening curly brace character. -/
def obr : Char := Char.ofNat 123

/-- Closing curly brace character. -/
def cbr : Char := Char.ofNat 125

/-- Backtick character. -/
def btk : Char := Char.ofNat 96

/-- Python `str` truthiness for a possibly-missing string field:
`None`/missing and the empty string are falsy. -/
def pyTruthyStr : Option Str → Bool
  | none => false
  | some s => !s.isEmpty

/-- Python numeric truthiness for a possibly-missing numeric field:
`None`/missing and `0` are falsy. -/
def pyTruthyNum : Option ℚ → Bool
  | none => false
  | some q => decide (q ≠ 0)

/-- The ASCII whitespace characters stripped by Python's `str.strip()`
(space, tab, newline, carriage return, vertical tab, form feed). -/
def isPySpace (c : Char) : Bool :=
  c = ' ' || c = '\t' || c = '\n' || c = '\r' || c = Char.ofNat 11 || c = Char.ofNat 12

/-- Python `str.lstrip()`. -/
def pyLstrip (s : Str) : Str := s.dropWhile isPySpace

/-- Python `str.rstrip()`. -/
def pyRstrip (s : Str) : Str := (s.reverse.dropWhile isPySpace).reverse

/-- Python `str.strip()`. -/
def pyStrip (s : Str) : Str := pyRstrip (pyLstrip s)

/-- Python `str.lower()` (ASCII case folding). -/
def pyLower (s : Str) : Str := s.map Char.toLower

/-- Python `str.upper()` (ASCII case folding). -/
def pyUpper (s : Str) : Str := s.map Char.toUpper

/-- Python `needle in haystack` substring test. -/
def containsSub (needle : Str) : Str → Bool
  | [] => needle.isEmpty
  | c :: t => needle.isPrefixOf (c :: t) || containsSub needle t

/-!
## Quality Gate (model2 `quality_check`, lines 985-1003, and v1
`quality_check`, lines 228-248)

model2 reads `programName`, `programDescription`, `funderName`,
`fundingStructure.amountMax`, `fundingStructure.fixedAmount`; only those
fields of the record dict are modelled.  v1 reads `amount_max`, `title`,
`description`, `funder`, `application_url`.
-/

/-- The two fields of the model2 `fundingStructure` sub-dict read by
`quality_check`. -/
structure FundingStructureV2 where
  amountMax : Option ℚ
  fixedAmount : Option ℚ
deriving DecidableEq

/-- The fields of a model2 grant record read by `quality_check`,
`flatten_grant_structure`'s source-URL column and the orchestrator. -/
structure GrantV2 where
  programName : Option Str
  programDescription : Option Str
  funderName : Option Str
  sourceURL : Option Str
  fundingStructure : Option FundingStructureV2
deriving DecidableEq

/-- The normalized description the model2 gate inspects:
`grant.get("programDescription", "").strip().lower()`. -/
def descV2 (g : GrantV2) : Str := pyLower (pyStrip (g.programDescription.getD []))

/-- model2 `quality_check` (extract-to-csv-model2/extract_grants_to_csv.py
lines 985-1003), statement by statement. -/
def quality_check (grant : GrantV2) : Bool :=
  if !pyTruthyStr grant.programName || !pyTruthyStr grant.programDescription
      || !pyTruthyStr grant.funderName then false
  else
    let fund := grant.fundingStructure.getD ⟨none, none⟩
    if !pyTruthyNum fund.amountMax && !pyTruthyNum fund.fixedAmount then false
    else
      let desc := descV2 grant
      if desc.length < 100 || containsSub "click here".toList desc
          || containsSub "learn more".toList desc then false
      else true

/-- The fields of a v1 grant record read by v1 `quality_check`. -/
structure GrantV1 where
  title : Option Str
  description : Option Str
  funder : Option Str
  application_url : Option Str
  amount_max : Option ℚ
deriving DecidableEq

/-- The normalized description the v1 gate inspects. -/
def descV1 (g : GrantV1) : Str := pyLower (pyStrip (g.description.getD []))

/-- v1's `critical_fields = ["title", "description", "funder", "application_url"]`. -/
def criticalFieldsV1 (g : GrantV1) : List (Option Str) :=
  [g.title, g.description, g.funder, g.application_url]

/-- v1's `empty_count`: how many critical fields are falsy. -/
def emptyCountV1 (g : GrantV1) : Nat :=
  ((criticalFieldsV1 g).filter (fun f => !pyTruthyStr f)).length

/-- v1 `quality_check` (extract-to-csv/extract_grants_to_csv.py lines
228-248), statement by statement. -/
def quality_check_v1 (grant : GrantV1) : Bool :=
  if !pyTruthyNum grant.amount_max then false
  else if 1 < emptyCountV1 grant then false
  else
    let desc := descV1 grant
    if desc.length < 80 || containsSub "click here".toList desc
        || containsSub "learn more".toList desc then false
    else true

/-- Claim C7: for every record satisfying the gate's other conditions
(core fields non-empty, a maximum or fixed funding amount truthy, no
boilerplate phrase in the normalized description), `quality_check`
returns `true` when the normalized description has exactly the threshold
length (100 in model2, 80 in v1) and `false` when it is one character
shorter. -/
theorem c7_quality_gate_boundary :
    (∀ g : GrantV2,
      pyTruthyStr g.programName = true →
      pyTruthyStr g.programDescription = true →
      pyTruthyStr g.funderName = true →
      (pyTruthyNum (g.fundingStructure.getD ⟨none, none⟩).amountMax = true ∨
        pyTruthyNum (g.fundingStructure.getD ⟨none, none⟩).fixedAmount = true) →
      containsSub "click here".toList (descV2 g) = false →
      containsSub "learn more".toList (descV2 g) = false →
      ((descV2 g).length = 100 → quality_check g = true) ∧
      ((descV2 g).length = 99 → quality_check g = false)) ∧
    (∀ g : GrantV1,
      pyTruthyNum g.amount_max = true →
      emptyCountV1 g ≤ 1 →
      containsSub "click here".toList (descV1 g) = false →
      containsSub "learn more".toList (descV1 g) = false →
      ((descV1 g).length = 80 → quality_check_v1 g = true) ∧
      ((descV1 g).length = 79 → quality_check_v1 g = false)) := by
  constructor
  · intro g h1 h2 h3 h4 h5 h6
    have hfund : (!pyTruthyNum (g.fundingStructure.getD ⟨none, none⟩).amountMax &&
        !pyTruthyNum (g.fundingStructure.getD ⟨none, none⟩).fixedAmount) = false := by
      rcases h4 with h | h <;> simp [h]
    constructor
    · intro hlen
      simp [quality_check, h1, h2, h3, hfund, hlen]
      exact ⟨h5, h6⟩
    · intro hlen
      simp [quality_check, h1, h2, h3, hfund, hlen]
  · intro g h1 h2 h3 h4
    have h2' : ¬ (1 < emptyCountV1 g) := by omega
    constructor
    · intro hlen
      simp [quality_check_v1, h1, h2', hlen]
      exact ⟨h3, h4⟩
    · intro hlen
      simp [quality_check_v1, h1, h2', hlen]

/-- A model2 record with an `n`-character description and all other gate
conditions satisfied. -/
def c7GrantV2 (n : Nat) : GrantV2 :=
  ⟨some "Test Grant".toList, some (List.replicate n 'a'), some "Foo Foundation".toList,
    none, some ⟨some 5000, none⟩⟩

/-- A v1 record with an `n`-character description and all other gate
conditions satisfied. -/
def c7GrantV1 (n : Nat) : GrantV1 :=
  ⟨some "Test Grant".toList, some (List.replicate n 'a'), some "Foo Foundation".toList,
    some "https://x.example".toList, some 5000⟩

/-- Witness for C7 at concrete records: a 100-character description
passes model2's gate and a 99-character one fails; an 80-character
description passes v1's gate and a 79-character one fails. -/
theorem c7_quality_gate_boundary_witness :
    quality_check (c7GrantV2 100) = true ∧ quality_check (c7GrantV2 99) = false ∧
    quality_check_v1 (c7GrantV1 80) = true ∧ quality_check_v1 (c7GrantV1 79) = false := by
  refine ⟨?_, ?_, ?_, ?_⟩
  · exact (c7_quality_gate_boundary.1 (c7GrantV2 100) (by decide) (by decide) (by decide)
      (Or.inl (by decide)) (by decide) (by decide)).1 (by decide)
  · exact (c7_quality_gate_boundary.1 (c7GrantV2 99) (by decide) (by decide) (by decide)
      (Or.inl (by decide)) (by decide) (by decide)).2 (by decide)
  · exact (c7_quality_gate_boundary.2 (c7GrantV1 80) (by decide) (by decide) (by decide)
      (by decide)).1 (by decide)
  · exact (c7_quality_gate_boundary.2 (c7GrantV1 79) (by decide) (by decide) (by decide)
      (by decide)).2 (by decide)

/-- A v1 record whose only empty critical field is `funder`: the
funding amount is truthy, the description is 80 characters of real
content, and `title`/`application_url` are present. -/
def c8FunderlessV1 : GrantV1 :=
  ⟨some "Test Grant".toList, some (List.replicate 80 'a'), some [],
    some "https://x.example".toList, some 5000⟩

/-- Counterexample to claim C8 as stated: in v1, a record whose
`funder` is empty still passes `quality_check`, because v1 only rejects
when more than one of its four critical fields is empty. -/
theorem c8_core_identity_counterexample :
    pyTruthyStr c8FunderlessV1.funder = false ∧ quality_check_v1 c8FunderlessV1 = true := by
  decide

/-- Claim C8 amended: in model2, `quality_check` returns `false`
whenever any single one of `programName`, `programDescription`,
`funderName` is missing or empty; in v1, `quality_check` rejects on
emptiness grounds only when at least two of its four critical fields
(`title`, `description`, `funder`, `application_url`) are empty, and a
record whose only empty core field is `funder` can pass. -/
theorem c8_core_identity_amended :
    (∀ g : GrantV2,
      (pyTruthyStr g.programName = false ∨ pyTruthyStr g.programDescription = false ∨
        pyTruthyStr g.funderName = false) →
      quality_check g = false) ∧
    (∀ g : GrantV1, 2 ≤ emptyCountV1 g → quality_check_v1 g = false) ∧
    (∃ g : GrantV1, pyTruthyStr g.funder = false ∧ quality_check_v1 g = true) := by
  refine ⟨?_, ?_, ?_⟩
  · intro g h
    rcases h with h | h | h <;> simp [quality_check, h]
  · intro g h
    have h' : 1 < emptyCountV1 g := by omega
    simp [quality_check_v1, h']
  · exact ⟨c8FunderlessV1, by decide, by decide⟩

/-- A model2 record with an empty `funderName`. -/
def c8NoFunderV2 : GrantV2 :=
  ⟨some "Test Grant".toList, some (List.replicate 100 'a'), some [], none,
    some ⟨some 5000, none⟩⟩

/-- A v1 record with empty `title` and empty `funder`. -/
def c8TwoEmptyV1 : GrantV1 :=
  ⟨some [], some (List.replicate 80 'a'), some [], some "https://x.example".toList, some 5000⟩

/-- Witness for the amended C8 at concrete records. -/
theorem c8_core_identity_amended_witness :
    quality_check c8NoFunderV2 = false ∧ quality_check_v1 c8TwoEmptyV1 = false := by
  constructor
  · exact c8_core_identity_amended.1 c8NoFunderV2 (Or.inr (Or.inr (by decide)))
  · exact c8_core_identity_amended.2.1 c8TwoEmptyV1 (by decide)

/-- Claim C10: a zero funding amount is treated as absent.  In model2,
a record whose `fundingStructure.amountMax` is `0` while `fixedAmount`
is `0` or absent fails `quality_check`; in v1, a record whose
`amount_max` is `0` fails `quality_check`.  The gate's amount test is a
Python falsiness check, not a presence check. -/
theorem c10_zero_amount_rejected :
    (∀ g : GrantV2,
      (g.fundingStructure.getD ⟨none, none⟩).amountMax = some 0 →
      ((g.fundingStructure.getD ⟨none, none⟩).fixedAmount = none ∨
        (g.fundingStructure.getD ⟨none, none⟩).fixedAmount = some 0) →
      quality_check g = false) ∧
    (∀ g : GrantV1, g.amount_max = some 0 → quality_check_v1 g = false) := by
  constructor
  · intro g h1 h2
    by_cases hcore : (!pyTruthyStr g.programName || !pyTruthyStr g.programDescription
        || !pyTruthyStr g.funderName) = true
    · simp [quality_check, hcore]
    · have hmax : pyTruthyNum (g.fundingStructure.getD ⟨none, none⟩).amountMax = false := by
        rw [h1]; decide
      have hfix : pyTruthyNum (g.fundingStructure.getD ⟨none, none⟩).fixedAmount = false := by
        rcases h2 with h | h <;> rw [h] <;> decide
      simp [quality_check, hcore, hmax, hfix]
  · intro g h
    have hmax : pyTruthyNum g.amount_max = false := by rw [h]; decide
    simp [quality_check_v1, hmax]

/-- A model2 record whose `amountMax` is `0` and `fixedAmount` absent. -/
def c10ZeroV2 : GrantV2 :=
  ⟨some "Test Grant".toList, some (List.replicate 100 'a'), some "Foo Foundation".toList,
    none, some ⟨some 0, none⟩⟩

/-- A v1 record whose `amount_max` is `0`. -/
def c10ZeroV1 : GrantV1 :=
  ⟨some "Test Grant".toList, some (List.replicate 80 'a'), some "Foo Foundation".toList,
    some "https://x.example".toList, some 0⟩

/-- Witness for C10 at concrete records with a zero amount present. -/
theorem c10_zero_amount_rejected_witness :
    quality_check c10ZeroV2 = false ∧ quality_check_v1 c10ZeroV1 = false := by
  constructor
  · exact c10_zero_amount_rejected.1 c10ZeroV2 (by decide) (Or.inl (by decide))
  · exact c10_zero_amount_rejected.2 c10ZeroV1 (by decide)

/-!
## Taxonomy Normalizer (model2 `validate_enum_array`, lines 456-675)

The closed enum vocabularies and the three synonym tables are
transcribed verbatim from the module-level constants and the mapping
dicts inside `validate_enum_array`.
-/

/-- model2 `VALID_SECTORS`. -/
def VALID_SECTORS : List String :=
  ["AGRICULTURE", "HEALTH", "EDUCATION", "ENERGY", "TECHNOLOGY", "MANUFACTURING",
   "ENVIRONMENT", "CREATIVE", "SOCIAL_SERVICES", "FINANCE", "LEGAL",
   "PROFESSIONAL_SERVICES", "TRANSPORTATION", "CONSTRUCTION", "HOSPITALITY",
   "RETAIL", "OPEN_TO_ALL", "N_A"]

/-- model2 `VALID_APPLICANT_TYPES`. -/
def VALID_APPLICANT_TYPES : List String :=
  ["INDIVIDUAL", "NON_PROFIT", "FOR_PROFIT", "RESEARCH_INSTITUTION", "PUBLIC_ENTITY",
   "OPEN_TO_ALL", "N_A"]

/-- model2 `VALID_EQUITY_FOCUS`. -/
def VALID_EQUITY_FOCUS : List String :=
  ["RURAL", "URBAN", "REMOTE", "INDIGENOUS", "WOMEN_LED", "BIPOC_LED", "MINORITY_LED",
   "YOUTH", "SENIOR", "LGBTQ_PLUS", "VETERAN", "DISABLED", "IMMIGRANT", "REFUGEE",
   "LOW_INCOME", "UNDERSERVED"]

/-- model2 `VALID_GRANT_PURPOSE`. -/
def VALID_GRANT_PURPOSE : List String :=
  ["RESEARCH", "PRODUCT_DEVELOPMENT", "CAPACITY_BUILDING", "INFRASTRUCTURE",
   "PROGRAM_EXPANSION", "OPERATIONAL", "CAPITAL", "EQUIPMENT", "TRAINING",
   "COMMUNITY_ENGAGEMENT", "MARKETING", "TECHNOLOGY", "HIRING"]

/-- model2 `sector_mappings` dict inside `validate_enum_array`. -/
def sector_mappings : List (String × String) :=
  [("HEALTHCARE", "HEALTH"), ("HEALTHCARE TECHNOLOGY", "HEALTH"),
   ("DIGITAL HEALTH", "HEALTH"), ("MEDICAL DEVICES", "HEALTH"),
   ("DIAGNOSTICS", "HEALTH"), ("THERAPEUTICS", "HEALTH"),
   ("HEALTH TECHNOLOGY", "HEALTH"), ("BIOMARKERS", "HEALTH"),
   ("MEDICAL TECHNOLOGY", "HEALTH"), ("HEALTHTECH", "HEALTH"),
   ("MEDTECH", "HEALTH"), ("VIRTUAL CARE", "HEALTH"),
   ("PRECISION HEALTH", "HEALTH"), ("REGENERATIVE MEDICINE", "HEALTH"),
   ("ADVANCED MEDICAL IMAGING", "HEALTH"), ("PERSONALIZED MEDICINE", "HEALTH"),
   ("PUBLIC HEALTH", "HEALTH"), ("HEALTH SYSTEM INNOVATION", "HEALTH"),
   ("BIOTECH", "HEALTH"), ("BIOTECHNOLOGY", "HEALTH"),
   ("PHARMA", "HEALTH"), ("PHARMACEUTICAL", "HEALTH"),
   ("LIFE SCIENCES", "HEALTH"), ("LIFE_SCIENCES", "HEALTH"),
   ("ARTIFICIAL INTELLIGENCE", "TECHNOLOGY"), ("MACHINE LEARNING", "TECHNOLOGY"),
   ("DATA ANALYTICS", "TECHNOLOGY"), ("REMOTE MONITORING", "TECHNOLOGY"),
   ("ROBOTICS", "TECHNOLOGY"), ("AUTOMATION", "TECHNOLOGY"),
   ("SOFTWARE", "TECHNOLOGY"), ("IT", "TECHNOLOGY"),
   ("INFORMATION TECHNOLOGY", "TECHNOLOGY"), ("INFORMATION_TECHNOLOGY", "TECHNOLOGY"),
   ("DIGITAL ECONOMY", "TECHNOLOGY"), ("DEEP TECH", "TECHNOLOGY"),
   ("INNOVATION", "TECHNOLOGY"), ("CLIMATE TECH", "ENERGY"),
   ("CLEANTECH", "ENERGY"), ("CLEAN TECHNOLOGY", "ENERGY"),
   ("AGTECH", "AGRICULTURE"), ("AGRI-FOOD", "AGRICULTURE"),
   ("AGRI_FOOD", "AGRICULTURE"), ("FINTECH", "FINANCE"),
   ("EDTECH", "EDUCATION"), ("ARTS", "CREATIVE"),
   ("CULTURE", "CREATIVE"), ("ARTS AND CULTURE", "CREATIVE"),
   ("PERFORMING ARTS", "CREATIVE"), ("VISUAL ARTS", "CREATIVE"),
   ("LITERARY ARTS", "CREATIVE"), ("MEDIA ARTS", "CREATIVE"),
   ("CRAFT", "CREATIVE"), ("DESIGN", "CREATIVE"),
   ("COMMUNITY ARTS", "CREATIVE"), ("CREATIVE INDUSTRIES", "CREATIVE"),
   ("CREATIVE ARTS", "CREATIVE"), ("TOURISM", "HOSPITALITY"),
   ("ADVANCED MATERIALS", "MANUFACTURING"), ("SCIENCE", "TECHNOLOGY"),
   ("ENGINEERING", "TECHNOLOGY"), ("SOCIAL SCIENCES", "SOCIAL_SERVICES"),
   ("HUMANITIES", "EDUCATION"), ("EXPORT-ORIENTED BUSINESSES", "OPEN_TO_ALL"),
   ("GENERAL BUSINESS INNOVATION", "OPEN_TO_ALL")]

/-- model2 `purpose_mappings` dict inside `validate_enum_array`. -/
def purpose_mappings : List (String × String) :=
  [("INNOVATION", "RESEARCH"), ("RESEARCH_AND_DEVELOPMENT", "RESEARCH"),
   ("R&D", "RESEARCH"), ("RESEARCH & DEVELOPMENT", "RESEARCH"),
   ("VALIDATION", "RESEARCH"), ("CLINICAL_TRIALS", "RESEARCH"),
   ("PROOF_OF_CONCEPT", "RESEARCH"), ("COMMERCIALIZATION", "PRODUCT_DEVELOPMENT"),
   ("PROTOTYPING", "PRODUCT_DEVELOPMENT"), ("PRODUCT DEVELOPMENT", "PRODUCT_DEVELOPMENT"),
   ("PRODUCT_DEVELOPMENT", "PRODUCT_DEVELOPMENT"), ("BUSINESS_GROWTH", "OPERATIONAL"),
   ("BUSINESS GROWTH", "OPERATIONAL"), ("OPERATING SUPPORT", "OPERATIONAL"),
   ("PROGRAM DELIVERY", "OPERATIONAL"), ("BUSINESS_DEVELOPMENT", "OPERATIONAL"),
   ("BUSINESS DEVELOPMENT", "OPERATIONAL"), ("PRODUCTIVITY IMPROVEMENT", "OPERATIONAL"),
   ("ECONOMIC DEVELOPMENT", "OPERATIONAL"), ("PILOT_PROJECTS", "RESEARCH"),
   ("SCALING_UP", "PROGRAM_EXPANSION"), ("SCALE_UP", "PROGRAM_EXPANSION"),
   ("EXPANSION", "PROGRAM_EXPANSION"), ("MARKET_EXPANSION", "MARKETING"),
   ("MARKET EXPANSION", "MARKETING"), ("MARKET ENTRY & EXPANSION", "MARKETING"),
   ("EXPORT_DEVELOPMENT", "MARKETING"), ("HEALTH_SYSTEM_IMPROVEMENT", "CAPACITY_BUILDING"),
   ("CAPACITY BUILDING", "CAPACITY_BUILDING"), ("CAPACITY_BUILDING", "CAPACITY_BUILDING"),
   ("PROFESSIONAL DEVELOPMENT", "TRAINING"), ("TECHNOLOGY_ADOPTION", "TECHNOLOGY"),
   ("TECH_ADOPTION", "TECHNOLOGY"), ("DIGITAL_ADOPTION", "TECHNOLOGY"),
   ("TECHNOLOGY ADOPTION", "TECHNOLOGY"), ("MARKET_ACCESS", "MARKETING"),
   ("MARKET ACCESS", "MARKETING"), ("ARTS AND CULTURE", "COMMUNITY_ENGAGEMENT"),
   ("COMMUNITY DEVELOPMENT", "COMMUNITY_ENGAGEMENT"), ("JOB CREATION", "HIRING")]

/-- model2 `equity_mappings` dict inside `validate_enum_array`. -/
def equity_mappings : List (String × String) :=
  [("BLACK-LED", "BIPOC_LED"), ("BLACK LED", "BIPOC_LED"), ("BLACK", "BIPOC_LED"),
   ("RACIALIZED COMMUNITIES", "BIPOC_LED"), ("RACIALIZED GROUPS", "BIPOC_LED"),
   ("VISIBLE_MINORITY", "BIPOC_LED"), ("VISIBLE MINORITY", "BIPOC_LED"),
   ("MINORITY", "MINORITY_LED"), ("MINORITY-LED", "MINORITY_LED"),
   ("MINORITY LED", "MINORITY_LED"), ("INDIGENOUS", "INDIGENOUS"),
   ("INDIGENOUS_PEOPLE", "INDIGENOUS"), ("INDIGENOUS PEOPLE", "INDIGENOUS"),
   ("WOMEN-LED", "WOMEN_LED"), ("WOMEN LED", "WOMEN_LED"), ("WOMEN", "WOMEN_LED"),
   ("LGBTQ", "LGBTQ_PLUS"), ("LGBTQ+", "LGBTQ_PLUS"), ("LGBTQ2S+", "LGBTQ_PLUS"),
   ("LGBTQ2S", "LGBTQ_PLUS"), ("DISABLED", "DISABLED"), ("DISABILITY", "DISABLED"),
   ("PEOPLE_WITH_DISABILITIES", "DISABLED"), ("PEOPLE WITH DISABILITIES", "DISABLED"),
   ("RURAL", "RURAL"), ("URBAN", "URBAN"), ("REMOTE", "REMOTE"),
   ("YOUTH", "YOUTH"), ("SENIOR", "SENIOR"), ("SENIORS", "SENIOR"),
   ("IMMIGRANT", "IMMIGRANT"), ("IMMIGRANTS", "IMMIGRANT"),
   ("REFUGEE", "REFUGEE"), ("REFUGEES", "REFUGEE"),
   ("VETERAN", "VETERAN"), ("VETERANS", "VETERAN"),
   ("LOW-INCOME", "LOW_INCOME"), ("LOW INCOME", "LOW_INCOME"),
   ("UNDERSERVED", "UNDERSERVED")]

/-- Python dict lookup `mappings[key]` / `key in mappings`, modelled as
first-match association lookup (the dict literals have no duplicate
keys). -/
def dictLookup (k : String) : List (String × String) → Option String
  | [] => none
  | p :: rest => if k = p.1 then some p.2 else dictLookup k rest

/-- `str(val).upper().strip()` as applied to each raw value. -/
def pyStripUpperS (val : String) : String := String.mk (pyStrip (pyUpper val.toList))

/-- The mapping table `validate_enum_array` chooses from `field_name`:
`"sector" in field_name.lower()`, then `"purpose"`, then `"equity"`,
else no mapping. -/
def chooseMappings (field_name : String) : List (String × String) :=
  if containsSub "sector".toList (pyLower field_name.toList) then sector_mappings
  else if containsSub "purpose".toList (pyLower field_name.toList) then purpose_mappings
  else if containsSub "equity".toList (pyLower field_name.toList) then equity_mappings
  else []

/-- The `for val in values` loop of `validate_enum_array`, carrying the
`validated` output list and the `seen` set (modelled as a list). -/
def veaGo (valid_values : List String) (mappings : List (String × String)) :
    List String → List String → List String → List String
  | [], validated, _seen => validated
  | val :: rest, validated, seen =>
    let val_upper := pyStripUpperS val
    if val_upper ∈ valid_values then
      if val_upper ∉ seen then
        veaGo valid_values mappings rest (validated ++ [val_upper]) (val_upper :: seen)
      else veaGo valid_values mappings rest validated seen
    else
      match dictLookup val_upper mappings with
      | some mapped =>
        if mapped ∉ seen then
          veaGo valid_values mappings rest (validated ++ [mapped]) (mapped :: seen)
        else veaGo valid_values mappings rest validated seen
      | none => veaGo valid_values mappings rest validated seen

/-- model2 `validate_enum_array` (lines 456-675): empty input short
circuit, mapping-table choice, then the validation loop. -/
def validate_enum_array (values valid_values : List String) (field_name : String) :
    List String :=
  if values.isEmpty then []
  else veaGo valid_values (chooseMappings field_name) values [] []

/-- The canonicalization of one raw value: itself (uppercased/stripped)
if already in the closed set, else its synonym-table image, else `none`
(dropped). -/
def veaCanon (valid_values : List String) (mappings : List (String × String))
    (val : String) : Option String :=
  let u := pyStripUpperS val
  if u ∈ valid_values then some u else dictLookup u mappings

/-- Modelled from the spec's words "deduplicated, order of first
occurrence preserved": keep each element's first occurrence, skipping
anything already seen. -/
def dedupFirstFrom (seen : List String) : List String → List String
  | [] => []
  | a :: l => if a ∈ seen then dedupFirstFrom seen l else a :: dedupFirstFrom (a :: seen) l

/-- Spec-side normalizer: canonicalize every raw value, drop the
unmapped ones, then deduplicate keeping first occurrences in order. -/
def specNormalize (values valid_values : List String)
    (mappings : List (String × String)) : List String :=
  dedupFirstFrom [] (values.filterMap (veaCanon valid_values mappings))

theorem veaGo_eq_dedupFirstFrom (valid_values : List String)
    (mappings : List (String × String)) (rest validated seen : List String) :
    veaGo valid_values mappings rest validated seen =
      validated ++ dedupFirstFrom seen (rest.filterMap (veaCanon valid_values mappings)) := by
  induction rest generalizing validated seen with
  | nil => simp [veaGo, dedupFirstFrom]
  | cons val rest ih =>
    by_cases hv : pyStripUpperS val ∈ valid_values
    · by_cases hs : pyStripUpperS val ∈ seen
      · simp [veaGo, hv, hs, veaCanon, dedupFirstFrom, ih]
      · simp [veaGo, hv, hs, veaCanon, dedupFirstFrom, ih]
    · cases hl : dictLookup (pyStripUpperS val) mappings with
      | none => simp [veaGo, hv, hl, veaCanon, dedupFirstFrom, ih]
      | some mapped =>
        by_cases hs : mapped ∈ seen
        · simp [veaGo, hv, hl, hs, veaCanon, dedupFirstFrom, ih]
        · simp [veaGo, hv, hl, hs, veaCanon, dedupFirstFrom, ih]

theorem mem_dedupFirstFrom {x : String} {seen l : List String}
    (h : x ∈ dedupFirstFrom seen l) : x ∈ l ∧ x ∉ seen := by
  induction l generalizing seen with
  | nil => simp [dedupFirstFrom] at h
  | cons a l ih =>
    by_cases hs : a ∈ seen
    · simp [dedupFirstFrom, hs] at h
      rcases ih h with ⟨h1, h2⟩
      exact ⟨List.mem_cons_of_mem a h1, h2⟩
    · simp [dedupFirstFrom, hs] at h
      rcases h with h | h
      · subst h; exact ⟨List.mem_cons_self x l, hs⟩
      · rcases ih h with ⟨h1, h2⟩
        refine ⟨List.mem_cons_of_mem a h1, fun hx => h2 (List.mem_cons_of_mem a hx)⟩

theorem nodup_dedupFirstFrom (seen l : List String) :
    (dedupFirstFrom seen l).Nodup := by
  induction l generalizing seen with
  | nil => simp [dedupFirstFrom]
  | cons a l ih =>
    by_cases hs : a ∈ seen
    · simpa [dedupFirstFrom, hs] using ih seen
    · simp only [dedupFirstFrom, hs, if_neg]
      refine List.nodup_cons.2 ⟨fun hmem => ?_, ih (a :: seen)⟩
      · exact (mem_dedupFirstFrom hmem).2 (List.mem_cons_self a seen)

theorem dictLookup_mem {k v : String} {m : List (String × String)}
    (h : dictLookup k m = some v) : (k, v) ∈ m := by
  induction m with
  | nil => simp [dictLookup] at h
  | cons p rest ih =>
    rcases p with ⟨a, b⟩
    by_cases hk : k = a
    · simp [dictLookup, hk] at h
      subst hk
      subst h
      exact List.mem_cons_self _ _
    · simp [dictLookup, hk] at h
      exact List.mem_cons_of_mem _ (ih h)

/-- Claim C3: for every input list of raw strings, every closed set and
every field name (the field name selects the synonym table, whose image
lies inside the matching closed set), `validate_enum_array` returns
exactly the spec-side normalization — canonical values only,
deduplicated, in order of first occurrence — so every output element is
in the closed set, no element occurs twice, and a raw value that is
neither in the closed set nor in the synonym table never appears in the
output. -/
theorem c3_taxonomy_closure (values valid_values : List String) (field_name : String)
    (hrange : ∀ p ∈ chooseMappings field_name, p.2 ∈ valid_values) :
    validate_enum_array values valid_values field_name =
      specNormalize values valid_values (chooseMappings field_name) ∧
    (∀ x ∈ validate_enum_array values valid_values field_name, x ∈ valid_values) ∧
    (validate_enum_array values valid_values field_name).Nodup ∧
    (∀ v ∈ values, pyStripUpperS v ∉ valid_values →
      dictLookup (pyStripUpperS v) (chooseMappings field_name) = none →
      pyStripUpperS v ∉ validate_enum_array values valid_values field_name) := by
  have heq : validate_enum_array values valid_values field_name =
      specNormalize values valid_values (chooseMappings field_name) := by
    cases values with
    | nil => simp [validate_enum_array, specNormalize, dedupFirstFrom]
    | cons v rest =>
      simp only [validate_enum_array, List.isEmpty_cons, Bool.false_eq_true, if_false,
        specNormalize]
      exact veaGo_eq_dedupFirstFrom _ _ _ _ _
  have hmemvalid : ∀ x ∈ validate_enum_array values valid_values field_name,
      x ∈ valid_values := by
    intro x hx
    rw [heq] at hx
    have hx' := (mem_dedupFirstFrom hx).1
    rcases List.mem_filterMap.1 hx' with ⟨v, _, hcanon⟩
    by_cases hv : pyStripUpperS v ∈ valid_values
    · simp [veaCanon, hv] at hcanon
      exact hcanon ▸ hv
    · simp [veaCanon, hv] at hcanon
      exact hrange _ (dictLookup_mem hcanon)
  refine ⟨heq, hmemvalid, ?_, ?_⟩
  · rw [heq]
    exact nodup_dedupFirstFrom _ _
  · intro v _ hnv _ hmem
    exact hnv (hmemvalid _ hmem)

/-- Witness for C3 at a concrete input: `"FinTech"` maps to canonical
`FINANCE`, a repeated raw synonym is not duplicated, and
`"Underwater Basket Weaving"` is dropped; the output is closed under
`VALID_SECTORS`. -/
theorem c3_taxonomy_closure_witness :
    validate_enum_array ["FinTech", "Underwater Basket Weaving", "fintech ", "HEALTH"]
        VALID_SECTORS "eligibleSectors" = ["FINANCE", "HEALTH"] ∧
    (∀ x ∈ validate_enum_array ["FinTech", "Underwater Basket Weaving", "fintech ", "HEALTH"]
        VALID_SECTORS "eligibleSectors", x ∈ VALID_SECTORS) := by
  constructor
  · decide
  · exact (c3_taxonomy_closure ["FinTech", "Underwater Basket Weaving", "fintech ", "HEALTH"]
      VALID_SECTORS "eligibleSectors" (by decide)).2.1

/-!
## Grant-id synthesis (model2 `parse_and_validate` lines 820-823, v1
`parse_and_validate` lines 212-215)

model2 builds `f"GRANT-{datetime.now().year}-{int(time.time())}_{random.randint(100,999)}"`;
the clock second `ts` and the random draw `r` are the only variable
parts (the computed `funder_base` is dead code in model2).  `randint(100, 999)`
has exactly 900 possible outcomes.
-/

/-- Python `str.replace(old, new)` for a one-character `old`: every
occurrence of the character is replaced. -/
def pyReplaceChar (pat : Char) (rep : Str) : Str → Str
  | [] => []
  | c :: t => if c = pat then rep ++ pyReplaceChar pat rep t else c :: pyReplaceChar pat rep t

/-- Python `text.replace('\r\n', new)`: every (non-overlapping,
left-to-right) carriage-return/newline pair is replaced. -/
def pyReplaceCRLF (rep : Str) : Str → Str
  | [] => []
  | [c] => [c]
  | c :: d :: t =>
    if c = '\r' ∧ d = '\n' then rep ++ pyReplaceCRLF rep t
    else c :: pyReplaceCRLF rep (d :: t)

/-- Python `x or default` for a possibly-missing string. -/
def pyOrStr (o : Option Str) (d : Str) : Str :=
  match o with
  | none => d
  | some s => if s.isEmpty then d else s

/-- Decimal digit characters of `n`, most significant first, via
fuel-bounded division (kernel-computable). -/
def natDigitsGo : Nat → Nat → List Char
  | 0, _ => []
  | fuel + 1, n => if n = 0 then [] else natDigitsGo fuel (n / 10) ++ [Nat.digitChar (n % 10)]

/-- Decimal rendering of a natural number, as produced by Python's
f-string interpolation of an `int`. -/
def natDigits (n : Nat) : List Char :=
  if n = 0 then ['0'] else natDigitsGo n n

/-- The synthesized grant id string of model2:
`f"GRANT-{year}-{ts}_{r}"`. -/
def make_grantID (year ts r : Nat) : Str :=
  "GRANT-".toList ++ natDigits year ++ '-' :: (natDigits ts ++ '_' :: natDigits r)

/-- model2's id synthesis for an item with a missing/empty `grantID`:
`funder_base` is computed from `funderName` but does not feed the id. -/
def synthGrantID (year ts r : Nat) (item : GrantV2) : Str :=
  let _funder_base :=
    (pyUpper (pyReplaceChar ' ' ['_'] (pyOrStr item.funderName "UNKNOWN".toList))).take 10
  make_grantID year ts r

theorem natDigitsGo_eq_digits (fuel n : Nat) (h : n ≤ fuel) :
    natDigitsGo fuel n = ((Nat.digits 10 n).map Nat.digitChar).reverse := by
  induction fuel generalizing n with
  | zero =>
    interval_cases n
    simp [natDigitsGo]
  | succ fuel ih =>
    by_cases hn : n = 0
    · simp [natDigitsGo, hn]
    · have hdiv : n / 10 ≤ fuel := by
        have h1 : n / 10 < n := Nat.div_lt_self (Nat.pos_of_ne_zero hn) (by norm_num)
        omega
      rw [natDigitsGo, if_neg hn, ih _ hdiv,
        Nat.digits_def' (by norm_num : (1 : Nat) < 10) (Nat.pos_of_ne_zero hn)]
      simp

theorem natDigits_eq_digits (n : Nat) :
    natDigits n = if n = 0 then ['0'] else ((Nat.digits 10 n).map Nat.digitChar).reverse := by
  by_cases hn : n = 0
  · simp [natDigits, hn]
  · simp [natDigits, hn, natDigitsGo_eq_digits n n (le_refl n)]

theorem digitChar_inj_lt : ∀ x < 10, ∀ y < 10, Nat.digitChar x = Nat.digitChar y → x = y := by
  decide

theorem map_digitChar_inj : ∀ (l1 l2 : List Nat), (∀ x ∈ l1, x < 10) → (∀ x ∈ l2, x < 10) →
    l1.map Nat.digitChar = l2.map Nat.digitChar → l1 = l2 := by
  intro l1
  induction l1 with
  | nil => intro l2 _ _ h; cases l2 <;> simp_all
  | cons a l ih =>
    intro l2 h1 h2 h
    cases l2 with
    | nil => simp at h
    | cons b l2' =>
      simp only [List.map_cons, List.cons.injEq] at h
      have ha : a = b := digitChar_inj_lt a (h1 a (by simp)) b (h2 b (by simp)) h.1
      have hl : l = l2' := ih l2' (fun x hx => h1 x (by simp [hx]))
        (fun x hx => h2 x (by simp [hx])) h.2
      rw [ha, hl]

theorem digits_eq_zero_list_of_map {n : Nat}
    (h : ((Nat.digits 10 n).map Nat.digitChar).reverse = ['0']) : n = 0 := by
  have hdig : Nat.digits 10 n = [0] := by
    refine map_digitChar_inj (Nat.digits 10 n) [0]
      (fun x hx => Nat.digits_lt_base (by norm_num) hx) (by simp) ?_
    have h2 := congrArg List.reverse h
    simpa using h2
  have h4 := congrArg (Nat.ofDigits 10) hdig
  rw [Nat.ofDigits_digits] at h4
  simpa [Nat.ofDigits] using h4

theorem natDigits_inj {a b : Nat} (h : natDigits a = natDigits b) : a = b := by
  rw [natDigits_eq_digits, natDigits_eq_digits] at h
  by_cases ha : a = 0 <;> by_cases hb : b = 0
  · rw [ha, hb]
  · exfalso
    rw [if_pos ha, if_neg hb] at h
    exact hb (digits_eq_zero_list_of_map h.symm)
  · exfalso
    rw [if_neg ha, if_pos hb] at h
    exact ha (digits_eq_zero_list_of_map h)
  · rw [if_neg ha, if_neg hb] at h
    have h2 : (Nat.digits 10 a).map Nat.digitChar = (Nat.digits 10 b).map Nat.digitChar := by
      have := congrArg List.reverse h
      simpa using this
    have h3 := map_digitChar_inj _ _
      (fun x hx => Nat.digits_lt_base (by norm_num) hx)
      (fun x hx => Nat.digits_lt_base (by norm_num) hx) h2
    have h4 := congrArg (Nat.ofDigits 10) h3
    rwa [Nat.ofDigits_digits, Nat.ofDigits_digits] at h4

theorem not_mem_natDigits_of_not_digitChar {c : Char}
    (hc : ∀ d : Nat, d < 10 → Nat.digitChar d ≠ c) (n : Nat) : c ∉ natDigits n := by
  rw [natDigits_eq_digits]
  by_cases hn : n = 0
  · rw [if_pos hn]
    intro hmem
    simp at hmem
    exact hc 0 (by norm_num) hmem.symm
  · rw [if_neg hn]
    intro hmem
    rw [List.mem_reverse, List.mem_map] at hmem
    rcases hmem with ⟨d, hd, hdc⟩
    exact hc d (Nat.digits_lt_base (by norm_num) hd) hdc

theorem dash_not_mem_natDigits (n : Nat) : '-' ∉ natDigits n :=
  not_mem_natDigits_of_not_digitChar (by decide) n

theorem underscore_not_mem_natDigits (n : Nat) : '_' ∉ natDigits n :=
  not_mem_natDigits_of_not_digitChar (by decide) n

theorem split_at_first_sep (sep : Char) :
    ∀ (A A' B B' : Str), sep ∉ A → sep ∉ A' → A ++ sep :: B = A' ++ sep :: B' →
      A = A' ∧ B = B' := by
  intro A
  induction A with
  | nil =>
    intro A' B B' _ hA' h
    cases A' with
    | nil => simpa using h
    | cons a' A2 =>
      simp only [List.nil_append, List.cons_append, List.cons.injEq] at h
      exact absurd (h.1 ▸ List.mem_cons_self a' A2) hA'
  | cons a A2 ih =>
    intro A' B B' hA hA' h
    cases A' with
    | nil =>
      simp only [List.nil_append, List.cons_append, List.cons.injEq] at h
      exact absurd (h.1 ▸ List.mem_cons_self a A2) hA
    | cons a' A2' =>
      simp only [List.cons_append, List.cons.injEq] at h
      have hmem : sep ∉ A2 := fun hx => hA (List.mem_cons_of_mem a hx)
      have hmem' : sep ∉ A2' := fun hx => hA' (List.mem_cons_of_mem a' hx)
      rcases ih A2' B B' hmem hmem' h.2 with ⟨h1, h2⟩
      exact ⟨by rw [h.1, h1], h2⟩

/-- Two distinct records synthesized in the same clock second with the
same random draw. -/
def c2RecA : GrantV2 :=
  ⟨some "Grant A".toList, none, some "Funder A".toList, none, none⟩

/-- A second, different record. -/
def c2RecB : GrantV2 :=
  ⟨some "Grant B".toList, none, some "Funder B".toList, none, none⟩

/-- Counterexample to claim C2 as stated: the synthesized id does not
depend on the record at all, so two distinct records produced in the
same second with the same `randint(100,999)` draw receive the same id;
and a run of 1000 draws inside one second (draw index 0 and draw index
900 both landing on 100, as `randint` can repeat) yields a duplicated
id, so 1000 synthetic ids are not always 1000 distinct values. -/
theorem c2_id_uniqueness_counterexample :
    (c2RecA ≠ c2RecB ∧
      synthGrantID 2025 1760000000 917 c2RecA = synthGrantID 2025 1760000000 917 c2RecB) ∧
    ((0 : Nat) ≠ 900 ∧
      make_grantID 2025 1760000000 (100 + 0 % 900) =
        make_grantID 2025 1760000000 (100 + 900 % 900)) := by
  refine ⟨⟨?_, rfl⟩, ⟨by norm_num, rfl⟩⟩
  decide

/-- Claim C2 amended: a synthesized id determines the `(year, second,
random draw)` triple — ids from distinct triples are distinct — but
within a single clock second only 900 ids exist, so any 1000 draws made
in the same second contain two distinct generations with the same id. -/
theorem c2_id_synthesis_amended :
    (∀ y ts r y' ts' r' : Nat,
      make_grantID y ts r = make_grantID y' ts' r' → y = y' ∧ ts = ts' ∧ r = r') ∧
    (∀ (year ts : Nat) (draws : Fin 1000 → Fin 900),
      ∃ i j : Fin 1000, i ≠ j ∧
        make_grantID year ts (100 + (draws i : Nat)) =
          make_grantID year ts (100 + (draws j : Nat))) := by
  constructor
  · intro y ts r y' ts' r' h
    unfold make_grantID at h
    rw [List.append_assoc, List.append_assoc, List.append_cancel_left_eq] at h
    have h1 := h
    rcases split_at_first_sep '-' _ _ _ _ (dash_not_mem_natDigits y)
      (dash_not_mem_natDigits y') h1 with ⟨hy, h2⟩
    rcases split_at_first_sep '_' _ _ _ _ (underscore_not_mem_natDigits ts)
      (underscore_not_mem_natDigits ts') h2 with ⟨hts, hr⟩
    exact ⟨natDigits_inj hy, natDigits_inj hts, natDigits_inj hr⟩
  · intro year ts draws
    have hcard : Fintype.card (Fin 900) < Fintype.card (Fin 1000) := by
      rw [Fintype.card_fin, Fintype.card_fin]
      norm_num
    rcases Fintype.exists_ne_map_eq_of_card_lt draws hcard with ⟨i, j, hij, hdraw⟩
    exact ⟨i, j, hij, by rw [hdraw]⟩

/-- Witness for the amended C2: the id-determines-triple direction
applied at a concrete id equation. -/
theorem c2_id_synthesis_amended_witness :
    2025 = 2025 ∧ 1760000000 = 1760000000 ∧ 917 = 917 :=
  c2_id_synthesis_amended.1 2025 1760000000 917 2025 1760000000 917 rfl

/-!
## Response Sanitizer (model2 `clean_json_string`, lines 290-341, and
the text cleanup inside `extract_from_gemini`, lines 370-399)

Each `re.sub`/`re.search` call is modelled by a concrete scan with the
semantics of its specific pattern (leftmost match, non-overlapping
continuation, lazy or greedy repetition as written).  The only
Python-fallible operation in `clean_json_string` is the
`cleaned_lines[-1]` index/assignment, modelled in the `Except PyErr`
monad; everything else is pure text transformation.
-/

/-- Python exceptions that the modelled fragments could raise. -/
inductive PyErr where
  | indexError : PyErr
deriving DecidableEq

/-- First index at which `pat` occurs in the list, if any. -/
def findSub (pat : Str) : Str → Option Nat
  | [] => if pat.isEmpty then some 0 else none
  | c :: t => if pat.isPrefixOf (c :: t) then some 0 else (findSub pat t).map (· + 1)

/-- `re.sub(r'\[cite:\[.*?\]\]', '', text, flags=re.DOTALL)`: at each
position, a match needs the literal `[cite:[` followed (lazily, across
newlines) by the earliest `]]`; scanning continues after the match. -/
def removeCiteNested : Str → Str
  | [] => []
  | c :: t =>
    if "[cite:[".toList.isPrefixOf (c :: t) then
      match findSub "]]".toList ((c :: t).drop 7) with
      | some i => removeCiteNested (((c :: t).drop 7).drop (i + 2))
      | none => c :: removeCiteNested t
    else c :: removeCiteNested t
termination_by l => l.length
decreasing_by
  all_goals simp_wf
  all_goals omega

/-- First index of `target` reachable without crossing a newline
(`.` does not match `\n` without DOTALL). -/
def findCharNoNl (target : Char) : Str → Option Nat
  | [] => none
  | c :: t =>
    if c = target then some 0
    else if c = '\n' then none
    else (findCharNoNl target t).map (· + 1)

/-- `re.sub(r'\[cite:.*?\]', '', text)`: the literal `[cite:` followed
(lazily, not across newlines) by the earliest `]`. -/
def removeCiteSimple : Str → Str
  | [] => []
  | c :: t =>
    if "[cite:".toList.isPrefixOf (c :: t) then
      match findCharNoNl ']' ((c :: t).drop 6) with
      | some i => removeCiteSimple (((c :: t).drop 6).drop (i + 1))
      | none => c :: removeCiteSimple t
    else c :: removeCiteSimple t
termination_by l => l.length
decreasing_by
  all_goals simp_wf
  all_goals omega


theorem length_dropWhile_le (p : Char → Bool) (l : Str) :
    (l.dropWhile p).length ≤ l.length := by
  induction l with
  | nil => simp
  | cons c t ih =>
    by_cases h : p c
    · simp only [List.dropWhile_cons, h, if_true, List.length_cons]
      omega
    · simp [List.dropWhile_cons, h]

/-- `re.sub(r'```json\s*', '', text)`. -/
def subFenceJson : Str → Str
  | [] => []
  | c :: t =>
    if "```json".toList.isPrefixOf (c :: t) then
      subFenceJson (((c :: t).drop 7).dropWhile isPySpace)
    else c :: subFenceJson t
termination_by l => l.length
decreasing_by
  all_goals simp_wf
  all_goals try omega
  have h := length_dropWhile_le isPySpace (t.drop 6)
  have h2 := List.length_drop 6 t
  omega

/-- `re.sub(r'```\s*', '', text)`. -/
def subFenceAny : Str → Str
  | [] => []
  | c :: t =>
    if "```".toList.isPrefixOf (c :: t) then
      subFenceAny (((c :: t).drop 3).dropWhile isPySpace)
    else c :: subFenceAny t
termination_by l => l.length
decreasing_by
  all_goals simp_wf
  all_goals try omega
  have h := length_dropWhile_le isPySpace (t.drop 2)
  have h2 := List.length_drop 2 t
  omega

/-- The `re.search(r'^[^\[\{]*?([\[\{])', ...)` prefix trim: drop
everything before the first `[` or `{`, leaving the text unchanged when
no bracket exists. -/
def trimToFirstBracket (l : Str) : Str :=
  let rest := l.dropWhile (fun c => !(c = '[' || c = obr))
  if rest.isEmpty then l else rest

/-- Keep the list up to (and including) the last occurrence of a
character satisfying `p`. -/
def takeUpToLastP (p : Char → Bool) (l : Str) : Str :=
  (l.reverse.dropWhile (fun c => !p c)).reverse

/-- `last_bracket = max(text.rfind(']'), text.rfind('}'))` truncation,
leaving the text unchanged when neither bracket occurs. -/
def truncAfterLastBracket (l : Str) : Str :=
  if ']' ∈ l ∨ cbr ∈ l then takeUpToLastP (fun c => c = ']' || c = cbr) l else l

/-- `re.search(r'(\[.*\]|\{.*\})', text, re.DOTALL)`: the leftmost
position opening a bracketed span (trying the `[...]` alternative
first), extending greedily to the last matching closer. -/
def searchJsonArrObj : Str → Option Str
  | [] => none
  | c :: t =>
    if c = '[' then
      if ']' ∈ t then some (c :: takeUpToLastP (fun d => d = ']') t)
      else searchJsonArrObj t
    else if c = obr then
      if cbr ∈ t then some (c :: takeUpToLastP (fun d => d = cbr) t)
      else searchJsonArrObj t
    else searchJsonArrObj t

/-- `re.search(r'([\[\{].*[\]\}])', text, re.DOTALL)` used by the final
startswith fallback in `extract_from_gemini`. -/
def searchMixed : Str → Option Str
  | [] => none
  | c :: t =>
    if (c = '[' || c = obr) && t.any (fun d => d = ']' || d = cbr) then
      some (c :: takeUpToLastP (fun d => d = ']' || d = cbr) t)
    else searchMixed t

/-- The control characters stripped by
`re.sub(r'[\x00-\x08\x0b-\x0c\x0e-\x1f\x7f]', '', text)`. -/
def isCtrlStrip (c : Char) : Bool :=
  c.toNat ≤ 8 || c.toNat = 11 || c.toNat = 12 ||
    (14 ≤ c.toNat && c.toNat ≤ 31) || c.toNat = 127

/-- Python `text.split('\n')` (keeps empty segments). -/
def splitNl : Str → List Str
  | [] => [[]]
  | c :: t =>
    if c = '\n' then [] :: splitNl t
    else
      match splitNl t with
      | h :: r => (c :: h) :: r
      | [] => [[c]]

/-- Count of `len(re.findall(r'(?<!\\)"', line))`: double quotes not
immediately preceded by a backslash, tracking the previous character. -/
def cuqGo : Option Char → Str → Nat
  | _, [] => 0
  | prev, c :: t =>
    (if c = dq ∧ ¬ prev = some bsl then 1 else 0) + cuqGo (some c) t

/-- Unescaped-quote count of a line. -/
def countUnescapedQuotes (l : Str) : Nat := cuqGo none l

/-- The `cleaned_lines[-1] = f(cleaned_lines[-1])` read-and-assign,
raising `IndexError` on an empty list. -/
def pyUpdateLast (f : Str → Str) : List Str → Except PyErr (List Str)
  | [] => .error .indexError
  | c :: t => .ok ((c :: t).dropLast ++ [f ((c :: t).getLast (by simp))])

/-- The line-rejoin loop of `clean_json_string` (lines 315-336): a line
reached while inside an open string value is joined onto the previous
accumulated line with a single space (`rstrip`/`lstrip` at the seam)
under the source's `if cleaned_lines:` guard; the in-string flag
toggles on lines with an odd unescaped-quote count. -/
def rejoinGo : List Str → List Str → Bool → Except PyErr (List Str)
  | [], cleaned, _ => .ok cleaned
  | line :: rest, cleaned, in_string =>
    let next_in := if countUnescapedQuotes line % 2 = 1 then !in_string else in_string
    if in_string then
      if cleaned.isEmpty then rejoinGo rest (cleaned ++ [line]) next_in
      else
        match pyUpdateLast (fun last => pyRstrip last ++ ' ' :: pyLstrip line) cleaned with
        | .error e => .error e
        | .ok cleaned' => rejoinGo rest cleaned' next_in
    else rejoinGo rest (cleaned ++ [line]) next_in

/-- `re.sub(r'  +', ' ', text)`: collapse each space run to a single
space, scanning with a previous-character-was-a-space flag. -/
def collapseGo : Bool → Str → Str
  | _, [] => []
  | prevSp, c :: t =>
    if c = ' ' then
      if prevSp then collapseGo true t else ' ' :: collapseGo true t
    else c :: collapseGo false t

/-- Space-run collapsing. -/
def collapseSpaces (l : Str) : Str := collapseGo false l

/-- The pure prefix of `clean_json_string`: JSON-span extraction,
problem code point replacement and control character stripping (lines
294-311). -/
def clean_pre (text : Str) : Str :=
  let t0 := match searchJsonArrObj text with
    | some m => m
    | none => text
  let t1 := pyReplaceChar (Char.ofNat 160) [' '] t0
  let t2 := pyReplaceChar (Char.ofNat 8203) [] t1
  let t3 := pyReplaceChar (Char.ofNat 8232) [' '] t2
  let t4 := pyReplaceChar (Char.ofNat 8233) [' '] t3
  let t5 := pyReplaceCRLF [' '] t4
  let t6 := pyReplaceChar '\r' [' '] t5
  let t7 := pyReplaceChar '\t' [' '] t6
  t7.filter (fun c => !isCtrlStrip c)

/-- model2 `clean_json_string` (lines 290-341), statement by statement,
in the `Except PyErr` monad. -/
def clean_core (text : Str) : Except PyErr Str :=
  match rejoinGo (splitNl (clean_pre text)) [] false with
  | .error e => .error e
  | .ok cleaned => .ok (collapseSpaces (List.intercalate ['\n'] cleaned))

/-- `clean_json_string` as the total function it is in practice. -/
def clean_json_string (text : Str) : Str := (clean_core text).toOption.getD []

theorem rejoinGo_ok (lines : List Str) :
    ∀ (cleaned : List Str) (in_string : Bool), ∃ r, rejoinGo lines cleaned in_string = .ok r := by
  induction lines with
  | nil => exact fun cleaned _ => ⟨cleaned, rfl⟩
  | cons line rest ih =>
    intro cleaned in_string
    simp only [rejoinGo]
    split
    · split
      · exact ih _ _
      · rename_i hne
        cases cleaned with
        | nil => simp at hne
        | cons c0 crest =>
          simp only [pyUpdateLast]
          exact ih _ _
    · exact ih _ _

/-- Claim C6: the sanitize operation `clean_json_string` is a pure,
total text transformation: for every input string, however malformed,
it evaluates without raising any modelled Python exception (the one
fallible operation, the `cleaned_lines[-1]` access, is guarded by the
source's `if cleaned_lines:` check) and returns its best-effort
candidate. -/
theorem c6_sanitizer_total (text : Str) :
    clean_core text = .ok (clean_json_string text) := by
  rcases rejoinGo_ok (splitNl (clean_pre text)) [] false with ⟨r, hr⟩
  simp [clean_core, clean_json_string, hr, Except.toOption]

/-- `raw_text.startswith(('[', '{'))`. -/
def startsWithBracket : Str → Bool
  | [] => false
  | c :: _ => c = '[' || c = obr

/-- The text cleanup applied to a non-empty service response inside
model2 `extract_from_gemini` (lines 370-399): strip, citation-tag
removal, markdown-fence removal, trim to the bracketed span,
`clean_json_string`, and the final bracket-start fallback search.  (The
debug-artifact file write that follows is a side effect not modelled
here.) -/
def gemini_sanitize (s : Str) : Str :=
  let r0 := pyStrip s
  let r1 := removeCiteNested r0
  let r2 := removeCiteSimple r1
  let r3 := subFenceJson r2
  let r4 := subFenceAny r3
  let r5 := trimToFirstBracket r4
  let r6 := truncAfterLastBracket r5
  let r7 := clean_json_string r6
  if startsWithBracket r7 then r7
  else
    match searchMixed r7 with
    | some m => m
    | none => r7

/-!
## Extraction Client retry/backoff (model2 `extract_from_gemini`,
lines 344-443; v1 lines 134-181)

One service interaction per loop iteration.  An attempt's outcome is
either a raised exception (`exn`, the `except` branch: backoff sleep of
`backoff * 2 ** (attempt - 1) + random.uniform(0, 1)` seconds, then
retry) or returned text (`ok s`; empty text hits the
`if not response.text: continue` branch, which retries with no sleep).
The trace of issued requests and sleeps is recorded as a list of
events.
-/

/-- Outcome of one `client.models.generate_content` call: a raised
exception, or response text (`ok []` models an empty/`None` text). -/
inductive GeminiOutcome where
  | exn : GeminiOutcome
  | ok : Str → GeminiOutcome

/-- Observable events of one `extract_from_gemini` run. -/
inductive RunEvent where
  | request : Nat → RunEvent
  | sleep : ℚ → RunEvent
deriving DecidableEq

/-- Is the event a service request? -/
def isRequestEvent : RunEvent → Bool
  | .request _ => true
  | .sleep _ => false

/-- The `for attempt in range(1, retries + 1)` loop of
`extract_from_gemini`, at attempt number `a` with `k` attempts left. -/
def extractLoop (respond : Nat → GeminiOutcome) (jitter : Nat → ℚ) (backoff : ℚ) :
    Nat → Nat → Option Str × List RunEvent
  | _, 0 => (none, [])
  | a, k + 1 =>
    match respond a with
    | .ok s =>
      if s.isEmpty then
        let r := extractLoop respond jitter backoff (a + 1) k
        (r.1, .request a :: r.2)
      else (some (gemini_sanitize s), [.request a])
    | .exn =>
      let r := extractLoop respond jitter backoff (a + 1) k
      (r.1, .request a :: .sleep (backoff * 2 ^ (a - 1) + jitter a) :: r.2)

/-- model2 `extract_from_gemini` (lines 344-443) over an abstract
service `respond` and jitter source `jitter` (modelling
`random.uniform(0, 1)`): returns the sanitized text of the first
non-empty response, or `none` after `retries` failed attempts, together
with the request/sleep trace. -/
def extract_from_gemini (respond : Nat → GeminiOutcome) (jitter : Nat → ℚ)
    (retries : Nat) (backoff : ℚ) : Option Str × List RunEvent :=
  extractLoop respond jitter backoff 1 retries

/-- Did attempt `a` fail (exception, or empty response text)? -/
def attemptFailed (respond : Nat → GeminiOutcome) (a : Nat) : Bool :=
  match respond a with
  | .exn => true
  | .ok s => s.isEmpty

/-- Claim C4 as stated, as a proposition about the model: with the
default `retries = 3`, `backoff = 2.0`, whenever attempts `1..a` all
fail (so attempt `a + 1` is issued), a backoff sleep of
`2 * 2 ** (a-1) + jitter` occurs — an empty response counting as a
failed attempt that is retried. -/
def c4ClaimedBackoff : Prop :=
  ∀ (respond : Nat → GeminiOutcome) (jitter : Nat → ℚ),
    (∀ n, 0 ≤ jitter n ∧ jitter n < 1) →
    ∀ a, 1 ≤ a → a < 3 →
      (∀ b, 1 ≤ b → b ≤ a → attemptFailed respond b = true) →
      RunEvent.sleep (2 * 2 ^ (a - 1) + jitter a) ∈
        (extract_from_gemini respond jitter 3 2).2

/-- Counterexample to claim C4 as stated: when the service returns
empty text on every attempt, each attempt fails and is retried, but the
`continue` branch sleeps never — the run's trace is three requests with
no sleep events at all, refuting the claimed backoff wait. -/
theorem c4_backoff_counterexample : ¬ c4ClaimedBackoff := by
  intro h
  have hmem := h (fun _ => .ok []) (fun _ => 0) (fun n => by norm_num) 1 (by norm_num)
    (by norm_num) (fun b hb1 hb2 => rfl)
  exact absurd hmem (by decide)

/-- The trace `extract_from_gemini` produces when no attempt returns
non-empty text: one request per attempt, with a backoff sleep exactly
after each attempt that raised an exception. -/
def failTrace (respond : Nat → GeminiOutcome) (jitter : Nat → ℚ) (backoff : ℚ) :
    Nat → Nat → List RunEvent
  | _, 0 => []
  | a, k + 1 =>
    RunEvent.request a ::
      ((match respond a with
        | .exn => [RunEvent.sleep (backoff * 2 ^ (a - 1) + jitter a)]
        | .ok _ => []) ++ failTrace respond jitter backoff (a + 1) k)

theorem extractLoop_requests_le (respond : Nat → GeminiOutcome) (jitter : Nat → ℚ)
    (backoff : ℚ) : ∀ (k a : Nat),
    ((extractLoop respond jitter backoff a k).2.filter isRequestEvent).length ≤ k := by
  intro k
  induction k with
  | zero => intro a; simp [extractLoop]
  | succ k ih =>
    intro a
    have hih := ih (a + 1)
    cases hr : respond a with
    | exn =>
      simp [extractLoop, hr, isRequestEvent]
      try simp at hih
      omega
    | ok s =>
      by_cases hs : s.isEmpty
      · simp [extractLoop, hr, hs, isRequestEvent]
        try simp at hih
        omega
      · simp [extractLoop, hr, hs, isRequestEvent]

theorem extractLoop_all_fail (respond : Nat → GeminiOutcome) (jitter : Nat → ℚ)
    (backoff : ℚ) : ∀ (k a : Nat),
    (∀ b, a ≤ b → b < a + k → attemptFailed respond b = true) →
    extractLoop respond jitter backoff a k =
      (none, failTrace respond jitter backoff a k) := by
  intro k
  induction k with
  | zero => intro a _; simp [extractLoop, failTrace]
  | succ k ih =>
    intro a hfail
    have ha : attemptFailed respond a = true := hfail a (le_refl a) (by omega)
    have hrest : ∀ b, a + 1 ≤ b → b < (a + 1) + k → attemptFailed respond b = true :=
      fun b hb1 hb2 => hfail b (by omega) (by omega)
    cases hr : respond a with
    | exn =>
      simp only [extractLoop, hr, failTrace, ih (a + 1) hrest, List.singleton_append]
    | ok s =>
      have hs : s.isEmpty = true := by
        unfold attemptFailed at ha
        rw [hr] at ha
        exact ha
      simp only [extractLoop, hr, hs, if_true, failTrace, ih (a + 1) hrest, List.nil_append]

/-- Claim C4 amended: `extract_from_gemini` issues at most `retries`
requests; when every attempt fails (exception or empty response), it
returns `none` without raising, and the backoff waits of
`backoff * 2 ** (attempt-1) + jitter` seconds occur exactly after the
attempts that raised exceptions — an empty response is retried
immediately with no wait (and an exception on the final attempt still
sleeps once more before giving up). -/
theorem c4_retry_backoff_amended (respond : Nat → GeminiOutcome) (jitter : Nat → ℚ)
    (retries : Nat) (backoff : ℚ) :
    ((extract_from_gemini respond jitter retries backoff).2.filter isRequestEvent).length
        ≤ retries ∧
    ((∀ b, 1 ≤ b → b ≤ retries → attemptFailed respond b = true) →
      extract_from_gemini respond jitter retries backoff =
        (none, failTrace respond jitter backoff 1 retries)) := by
  constructor
  · exact extractLoop_requests_le respond jitter backoff retries 1
  · intro hfail
    exact extractLoop_all_fail respond jitter backoff retries 1
      (fun b hb1 hb2 => hfail b hb1 (by omega))

/-- A service that returns empty text on attempts 1 and 3 and raises on
attempt 2. -/
def c4Respond : Nat → GeminiOutcome := fun a => if a = 2 then .exn else .ok []

/-- A fixed jitter draw of one half. -/
def c4Jitter : Nat → ℚ := fun _ => 1 / 2

/-- Witness for the amended C4 at a concrete run: three requests, one
sleep of `2 * 2 ** 1 + 1/2 = 9/2` seconds after the raising attempt 2
only, and a `none` result. -/
theorem c4_retry_backoff_amended_witness :
    extract_from_gemini c4Respond c4Jitter 3 2 =
      (none, [RunEvent.request 1, RunEvent.request 2, RunEvent.sleep (9 / 2),
        RunEvent.request 3]) := by
  have h := (c4_retry_backoff_amended c4Respond c4Jitter 3 2).2
    (fun b hb1 hb2 => by
      interval_cases b <;> rfl)
  rw [h]
  norm_num [failTrace, c4Respond, c4Jitter]

/-!
## Record Validator JSON recovery (model2 `parse_and_validate`,
lines 678-806)

`json.loads` is the external JSON parser, modelled as an abstract
`loads : Str → Except Nat J` returning a parsed value or an error
position (`e.pos`).  The five repair strategies' text rewrites are
modelled concretely from their regular expressions; strategy 4's
bracket-balance scan is transcribed from the source's character loop.
The per-item validation that follows a successful parse is abstracted
as `postProcess`.
-/

/-- Strategy 1, first rewrite: `re.sub(r'"\s*([a-zA-Z_])', r'", \1', ...)` —
a quote, optional whitespace, then an identifier character becomes
`", "` plus that character. -/
def sub_s1a : Str → Str
  | [] => []
  | c :: t =>
    if c = dq then
      match h : t.dropWhile isPySpace with
      | d :: r2 =>
        if d.isAlpha || d = '_' then dq :: ',' :: ' ' :: d :: sub_s1a r2
        else c :: sub_s1a t
      | [] => c :: sub_s1a t
    else c :: sub_s1a t
termination_by l => l.length
decreasing_by
  all_goals simp_wf
  all_goals try omega
  have h1 := length_dropWhile_le isPySpace t
  have hlen := congrArg List.length h
  simp at hlen
  omega

/-- Strategy 1, second rewrite:
`re.sub(r'([0-9])\s*"([a-zA-Z_])', r'\1, "\2', ...)`. -/
def sub_s1b : Str → Str
  | [] => []
  | c :: t =>
    if c.isDigit then
      match h : t.dropWhile isPySpace with
      | d :: r2 =>
        if d = dq then
          match h2 : r2 with
          | e :: r3 =>
            if e.isAlpha || e = '_' then c :: ',' :: ' ' :: dq :: e :: sub_s1b r3
            else c :: sub_s1b t
          | [] => c :: sub_s1b t
        else c :: sub_s1b t
      | [] => c :: sub_s1b t
    else c :: sub_s1b t
termination_by l => l.length
decreasing_by
  all_goals simp_wf
  all_goals try omega
  have h1 := length_dropWhile_le isPySpace t
  have hlen := congrArg List.length h
  simp [h2] at hlen
  omega

/-- The lookahead of strategy 2's `(?=[^,\[\]\{\}:])`: the next
character exists and is not structural. -/
def s2Follow : Str → Bool
  | d :: _ => !(d = ',' || d = '[' || d = ']' || d = obr || d = cbr || d = ':')
  | [] => false

/-- Strategy 2: `re.sub(r'(?<!\\)\n(?=[^,\[\]\{\}:])', ' ', ...)` — a
newline not preceded by a backslash and followed by a non-structural
character becomes a space. -/
def sub_s2_go : Option Char → Str → Str
  | _, [] => []
  | prev, c :: t =>
    if c = '\n' ∧ ¬ prev = some bsl ∧ s2Follow t = true then ' ' :: sub_s2_go (some c) t
    else c :: sub_s2_go (some c) t

/-- Strategy 2 rewrite. -/
def sub_s2 (l : Str) : Str := sub_s2_go none l

/-- The lookahead of strategy 3's `(?!\s*[,\[\]\{\}"])`: whitespace and
then a structural character or quote. -/
def s3Follow (t : Str) : Bool :=
  match t.dropWhile isPySpace with
  | d :: _ => d = ',' || d = '[' || d = ']' || d = obr || d = cbr || d = dq
  | [] => false

/-- Strategy 3: `re.sub(r'\n(?!\s*[,\[\]\{\}"])', ' ', ...)` — a newline
not followed by (whitespace and) a structural character becomes a
space. -/
def sub_s3 : Str → Str
  | [] => []
  | c :: t =>
    if c = '\n' ∧ ¬ s3Follow t = true then ' ' :: sub_s3 t
    else c :: sub_s3 t

/-- The characters excluded from strategy 5's captured group
`[^"{\[\]},]+`. -/
def isS5Excluded (d : Char) : Bool :=
  d = dq || d = obr || d = '[' || d = ']' || d = cbr || d = ','

/-- Strategy 5: `re.sub(r'"\s*\n\s*([^"{\[\]},]+)\s*"', r'", "\1"', ...)`
— a quote, whitespace containing a newline, a non-empty run of
non-structural characters, then a closing quote, rewritten as
`", "` + group + `"`. -/
def sub_s5 : Str → Str
  | [] => []
  | c :: t =>
    if c = dq ∧ '\n' ∈ t.takeWhile isPySpace then
      match h : (t.dropWhile isPySpace).drop
          ((t.dropWhile isPySpace).takeWhile (fun d => !isS5Excluded d)).length with
      | d :: r2 =>
        if d = dq ∧ ¬ ((t.dropWhile isPySpace).takeWhile (fun d => !isS5Excluded d)).isEmpty then
          dq :: ',' :: ' ' :: dq ::
            ((t.dropWhile isPySpace).takeWhile (fun d => !isS5Excluded d) ++ dq :: sub_s5 r2)
        else c :: sub_s5 t
      | [] => c :: sub_s5 t
    else c :: sub_s5 t
termination_by l => l.length
decreasing_by
  all_goals simp_wf
  all_goals try omega
  have h1 := length_dropWhile_le isPySpace t
  have hlen := congrArg List.length h
  simp at hlen
  omega

/-- Python `text.find(c)`. -/
def pyFind (c : Char) (l : Str) : Option Nat := findSub [c] l

/-- Strategy 4's character scan (lines 744-774): from the start
position, track string state and escapes, count bracket depth, and
return the first balanced span. -/
def balancedScanGo : Str → Str → Int → Bool → Bool → Option Str
  | [], _, _, _, _ => none
  | c :: t, acc, depth, in_string, escape_next =>
    if escape_next then balancedScanGo t (acc ++ [c]) depth in_string false
    else if c = bsl then balancedScanGo t (acc ++ [c]) depth in_string true
    else if c = dq then balancedScanGo t (acc ++ [c]) depth (!in_string) false
    else if !in_string && (c = '[' || c = obr) then
      balancedScanGo t (acc ++ [c]) (depth + 1) in_string false
    else if !in_string && (c = ']' || c = cbr) then
      if depth - 1 = 0 then some (acc ++ [c])
      else balancedScanGo t (acc ++ [c]) (depth - 1) in_string false
    else balancedScanGo t (acc ++ [c]) depth in_string false

/-- Strategy 4: find the first `[` (else the first `{`) and extract the
first balanced bracket span from there. -/
def strategy4Extract (raw : Str) : Option Str :=
  match pyFind '[' raw with
  | some i => balancedScanGo (raw.drop i) [] 0 false false
  | none =>
    match pyFind obr raw with
    | some i => balancedScanGo (raw.drop i) [] 0 false false
    | none => none

/-- Python slice `l[a:b]` (with clamping). -/
def pySlice (l : Str) (a b : Nat) : Str := (l.take b).drop a

/-- The error artifact `parse_and_validate` persists when every repair
strategy fails: source URL, strict-parse error position, the ±200
character context window, and the whole payload (lines 790-805). -/
structure ErrorArtifact where
  source_url : Str
  pos : Nat
  context : Str
  payload : Str
deriving DecidableEq

/-- Result of the JSON-recovery cascade: a parsed value together with
the index of the stage that produced it (0 = strict parse, 1-5 = repair
strategies), or failure carrying the strict parse's error position. -/
inductive RecoveryResult (J : Type) where
  | parsed : J → Nat → RecoveryResult J
  | failed : Nat → RecoveryResult J
deriving DecidableEq

/-- The try/except cascade of `parse_and_validate` (lines 689-806),
statement by statement: strict parse, then strategies 1-5 guarded by
the `fixed` flag, stopping at the first success. -/
def jsonRecovery {J : Type} (loads : Str → Except Nat J) (raw : Str) : RecoveryResult J :=
  match loads raw with
  | .ok parsed => .parsed parsed 0
  | .error pos =>
    match loads (sub_s1b (sub_s1a raw)) with
    | .ok parsed => .parsed parsed 1
    | .error _ =>
      match loads (sub_s2 raw) with
      | .ok parsed => .parsed parsed 2
      | .error _ =>
        match loads (sub_s3 raw) with
        | .ok parsed => .parsed parsed 3
        | .error _ =>
          match strategy4Extract raw with
          | some span =>
            match loads span with
            | .ok parsed => .parsed parsed 4
            | .error _ =>
              match loads (sub_s5 raw) with
              | .ok parsed => .parsed parsed 5
              | .error _ => .failed pos
          | none =>
            match loads (sub_s5 raw) with
            | .ok parsed => .parsed parsed 5
            | .error _ => .failed pos

/-- model2 `parse_and_validate`'s recovery-and-return behaviour: empty
input short-circuits to empty lists; a recovered parse is handed to the
per-item validation loop (abstracted as `postProcess`); total failure
persists the error artifact and returns empty valid and invalid
lists. -/
def parse_and_validate_model {J V I : Type} (loads : Str → Except Nat J)
    (postProcess : J → List V × List I) (raw source_url : Str) :
    (List V × List I) × Option ErrorArtifact :=
  if raw.isEmpty then (([], []), none)
  else
    match jsonRecovery loads raw with
    | .parsed j _ => (postProcess j, none)
    | .failed pos =>
      (([], []), some ⟨source_url, pos, pySlice raw (pos - 200) (pos + 200), raw⟩)

/-- The candidate texts the cascade parses, in attempt order. -/
def cascadeCandidates (raw : Str) : List (Option Str) :=
  [some raw, some (sub_s1b (sub_s1a raw)), some (sub_s2 raw), some (sub_s3 raw),
    strategy4Extract raw, some (sub_s5 raw)]

/-- Spec-side cascade: try the candidates in order and return the first
successful parse with its stage index. -/
def firstSuccess {J : Type} (loads : Str → Except Nat J) :
    List (Option Str) → Nat → Option (J × Nat)
  | [], _ => none
  | none :: rest, i => firstSuccess loads rest (i + 1)
  | some cand :: rest, i =>
    match loads cand with
    | .ok j => some (j, i)
    | .error _ => firstSuccess loads rest (i + 1)

/-- Spec-side `parse_and_validate`: ordered first-success recovery;
when every candidate fails, the artifact holds the strict parse's error
position, its ±200 window and the whole payload, and both record lists
are empty. -/
def parse_and_validate_spec {J V I : Type} (loads : Str → Except Nat J)
    (postProcess : J → List V × List I) (raw source_url : Str) :
    (List V × List I) × Option ErrorArtifact :=
  if raw.isEmpty then (([], []), none)
  else
    match firstSuccess loads (cascadeCandidates raw) 0 with
    | some (j, _) => (postProcess j, none)
    | none =>
      match loads raw with
      | .error pos =>
        (([], []), some ⟨source_url, pos, pySlice raw (pos - 200) (pos + 200), raw⟩)
      | .ok _ => (([], []), none)

/-- Spec-side recovery result: the ordered first-success scan, with
total failure carrying the strict parse's error position (the `ok`
fallback arm is unreachable, since the strict parse is candidate 0). -/
def jsonRecoverySpec {J : Type} (loads : Str → Except Nat J) (raw : Str) :
    RecoveryResult J :=
  match firstSuccess loads (cascadeCandidates raw) 0, loads raw with
  | some (j, i), _ => .parsed j i
  | none, .error pos => .failed pos
  | none, .ok j => .parsed j 0

/-- Claim C5: for every parser behaviour and every candidate text, the
repair cascade of `parse_and_validate` attempts the strict parse and
the five repair strategies in their fixed order and stops at the first
success — `jsonRecovery` equals the ordered first-success scan over
`cascadeCandidates` — and `parse_and_validate` equals its spec-side
description: a recovered parse is handed on, and on total failure it
persists the strict error position, its ±200 context window and the
whole payload to the artifact and returns empty valid and invalid
record lists. -/
theorem c5_repair_cascade {J V I : Type} (loads : Str → Except Nat J)
    (postProcess : J → List V × List I) (raw source_url : Str) :
    jsonRecovery loads raw = jsonRecoverySpec loads raw ∧
    parse_and_validate_model loads postProcess raw source_url =
      parse_and_validate_spec loads postProcess raw source_url := by
  have hrec : jsonRecovery loads raw = jsonRecoverySpec loads raw := by
    cases h0 : loads raw with
    | ok p => simp [jsonRecovery, jsonRecoverySpec, cascadeCandidates, firstSuccess, h0]
    | error pos0 =>
      cases h1 : loads (sub_s1b (sub_s1a raw)) with
      | ok p =>
        simp [jsonRecovery, jsonRecoverySpec, cascadeCandidates, firstSuccess, h0, h1]
      | error e1 =>
        cases h2 : loads (sub_s2 raw) with
        | ok p =>
          simp [jsonRecovery, jsonRecoverySpec, cascadeCandidates, firstSuccess, h0, h1, h2]
        | error e2 =>
          cases h3 : loads (sub_s3 raw) with
          | ok p =>
            simp [jsonRecovery, jsonRecoverySpec, cascadeCandidates, firstSuccess,
              h0, h1, h2, h3]
          | error e3 =>
            cases h4 : strategy4Extract raw with
            | some span =>
              cases h4l : loads span with
              | ok p =>
                simp [jsonRecovery, jsonRecoverySpec, cascadeCandidates, firstSuccess,
                  h0, h1, h2, h3, h4, h4l]
              | error e4 =>
                cases h5 : loads (sub_s5 raw) with
                | ok p =>
                  simp [jsonRecovery, jsonRecoverySpec, cascadeCandidates, firstSuccess,
                    h0, h1, h2, h3, h4, h4l, h5]
                | error e5 =>
                  simp [jsonRecovery, jsonRecoverySpec, cascadeCandidates, firstSuccess,
                    h0, h1, h2, h3, h4, h4l, h5]
            | none =>
              cases h5 : loads (sub_s5 raw) with
              | ok p =>
                simp [jsonRecovery, jsonRecoverySpec, cascadeCandidates, firstSuccess,
                  h0, h1, h2, h3, h4, h5]
              | error e5 =>
                simp [jsonRecovery, jsonRecoverySpec, cascadeCandidates, firstSuccess,
                  h0, h1, h2, h3, h4, h5]
  refine ⟨hrec, ?_⟩
  unfold parse_and_validate_model parse_and_validate_spec
  by_cases hemp : raw.isEmpty
  · simp [hemp]
  · rw [hrec]
    simp only [hemp, if_false, Bool.false_eq_true]
    unfold jsonRecoverySpec
    cases hf : firstSuccess loads (cascadeCandidates raw) 0 with
    | some ji =>
      rcases ji with ⟨j, i⟩
      rfl
    | none =>
      cases h0 : loads raw with
      | ok p =>
        exfalso
        simp [cascadeCandidates, firstSuccess, h0] at hf
      | error pos => rfl

/-!
## Pipeline Orchestrator and deduplication (model2 `run_pipeline`
lines 1047-1109, `save_to_csv` lines 1006-1028, `load_processed_urls`
lines 1031-1044)

The filesystem is an association list from file paths to CSV row lists.
`flatten_grant_structure` is modelled by its source-URL column
projection (the only column any of the modelled readers consult); the
invalid-records side file and the metrics log are not modelled.  The
extraction + parse + validate chain for one URL is abstracted as
`extractParse : Str → Option (List GrantV2)` (`none` = extraction
failed); `parse_and_validate`'s `item["sourceURL"] = source_url`
assignment is applied in the loop.
-/

/-- One flattened CSV row, projected to the `sourceURL` column that
`load_processed_urls` reads. -/
structure FlatRow where
  sourceURL : Str
deriving DecidableEq

/-- A filesystem of CSV files. -/
abbrev FS := List (Str × List FlatRow)

/-- Read a file's rows. -/
def fileLookup (name : Str) : FS → Option (List FlatRow)
  | [] => none
  | (n, rs) :: rest => if n = name then some rs else fileLookup name rest

/-- `df.to_csv(name, mode="a", ...)`: append to the file, creating it
if absent. -/
def fsAppend (name : Str) (rows : List FlatRow) : FS → FS
  | [] => [(name, rows)]
  | (n, rs) :: rest =>
    if n = name then (n, rs ++ rows) :: rest else (n, rs) :: fsAppend name rows rest

/-- `df.to_csv(name, mode="w", ...)`: overwrite the file. -/
def fsWrite (name : Str) (rows : List FlatRow) : FS → FS
  | [] => [(name, rows)]
  | (n, rs) :: rest =>
    if n = name then (n, rows) :: rest else (n, rs) :: fsWrite name rows rest

/-- model2 `flatten_grant_structure` (lines 870-982), projected to its
`sourceURL` column: `grant.get("sourceURL", "")`. -/
def flatten_grant_structure (grant : GrantV2) : FlatRow :=
  ⟨grant.sourceURL.getD []⟩

/-- model2 `save_to_csv` (lines 1006-1028): nothing saved when there
are no valid records, else the flattened records are appended to the
run-timestamped `VALIDATED_CSV = data/processed/validated_grants_{now_utc}.csv`. -/
def save_to_csv (now_utc : Str) (valid_records : List GrantV2) (fs : FS) : FS :=
  if valid_records.isEmpty then fs
  else
    fsAppend ("data/processed/validated_grants_".toList ++ now_utc ++ ".csv".toList)
      (valid_records.map flatten_grant_structure) fs

/-- model2 `load_processed_urls` (lines 1031-1044): read the
`sourceURL` column of the *static* `data/processed/validated_grants.csv`
into the de-dup set; an absent file yields the empty set. -/
def load_processed_urls (fs : FS) : List Str :=
  match fileLookup "data/processed/validated_grants.csv".toList fs with
  | none => []
  | some rows => rows.map (·.sourceURL)

/-- The `for i, url in enumerate(SOURCES)` loop of `run_pipeline`:
skip URLs in the processed set, otherwise extract + parse and
accumulate the valid records with `sourceURL` attached. -/
def runLoop (extractParse : Str → Option (List GrantV2)) (processed : List Str) :
    List Str → List GrantV2 → List GrantV2
  | [], acc => acc
  | url :: rest, acc =>
    if url ∈ processed then runLoop extractParse processed rest acc
    else
      match extractParse url with
      | none => runLoop extractParse processed rest acc
      | some vs =>
        runLoop extractParse processed rest
          (acc ++ vs.map (fun g => { g with sourceURL := some url }))

/-- model2 `run_pipeline` (lines 1047-1109): load the processed set,
run the per-source loop, split the valid records through
`quality_check`, append the accepted records via `save_to_csv`, and
write the per-run manual-review file. -/
def run_pipeline (now_utc : Str) (sources : List Str)
    (extractParse : Str → Option (List GrantV2)) (fs : FS) : FS :=
  let processed := load_processed_urls fs
  let all_valid := runLoop extractParse processed sources []
  let high_quality := all_valid.filter quality_check
  let manual_review := all_valid.filter (fun g => !quality_check g)
  let fs1 := save_to_csv now_utc high_quality fs
  if manual_review.isEmpty then fs1
  else
    fsWrite ("data/processed/manual_review_".toList ++ now_utc ++ ".csv".toList)
      (manual_review.map flatten_grant_structure) fs1

/-- The single-source list of the two-run scenario. -/
def c1Sources : List Str := ["https://grants.example/a".toList]

/-- An extraction returning one gate-passing record for every URL on
every run (same source list, no new sources). -/
def c1Extract : Str → Option (List GrantV2) := fun _ => some [c7GrantV2 150]

/-- The filesystem after the first run (timestamp `t1`). -/
def c1Fs1 : FS := run_pipeline "t1".toList c1Sources c1Extract []

/-- The filesystem after the second run (timestamp `t2`). -/
def c1Fs2 : FS := run_pipeline "t2".toList c1Sources c1Extract c1Fs1

set_option maxRecDepth 8000 in
/-- Claim C1 evaluated at the failing input (code bug): `save_to_csv`
appends accepted rows to the run-timestamped
`validated_grants_{now_utc}.csv`, but `load_processed_urls` reads the
static `validated_grants.csv`, which no run ever writes.  After the
first run the static file still does not exist, so the second run's
de-dup set is empty, the same URL is re-processed, and the second run
appends one newly accepted row instead of zero. -/
theorem c1_idempotent_rerun_code_bug :
    load_processed_urls c1Fs1 = [] ∧
    fileLookup "data/processed/validated_grants.csv".toList c1Fs1 = none ∧
    fileLookup "data/processed/validated_grants_t2.csv".toList c1Fs2 =
      some [⟨"https://grants.example/a".toList⟩] := by
  refine ⟨?_, ?_, ?_⟩ <;> decide

/-!
## Sanitizer round trip (claim C9: model2 `extract_from_gemini` text
cleanup, lines 370-399, plus `clean_json_string`, lines 290-341)

The input family is a JSON array of flat objects with word keys and
word-sequence string values, wrapped in markdown fences, where any of
the single spaces between words inside a string value may instead be a
literal newline.  The development below proves what each cleanup stage
does to such texts.
-/

theorem char_ne_of_toNat_ne {c d : Char} (h : c.toNat ≠ d.toNat) : c ≠ d :=
  fun hc => h (by rw [hc])

/-- ASCII letters and digits, the character set of grammar words. -/
def wordChar (c : Char) : Bool :=
  (48 ≤ c.toNat && c.toNat ≤ 57) || (65 ≤ c.toNat && c.toNat ≤ 90) ||
    (97 ≤ c.toNat && c.toNat ≤ 122)

/-- The characters that can occur strictly between the outer brackets
of a rendered array: word characters, space, newline, quote, colon,
comma and braces. -/
def goodBodyChar (c : Char) : Bool :=
  wordChar c || c.toNat = 32 || c.toNat = 10 || c.toNat = 34 || c.toNat = 58 ||
    c.toNat = 44 || c.toNat = 123 || c.toNat = 125

theorem isPySpace_iff_toNat (c : Char) :
    isPySpace c = true ↔ (c.toNat = 32 ∨ c.toNat = 9 ∨ c.toNat = 10 ∨ c.toNat = 13 ∨
      c.toNat = 11 ∨ c.toNat = 12) := by
  constructor
  · intro h
    simp only [isPySpace, Bool.or_eq_true, decide_eq_true_eq] at h
    rcases h with ((((h | h) | h) | h) | h) | h <;> subst h <;> simp [Char.toNat]
  · intro h
    have hc : c = Char.ofNat c.toNat := (Char.ofNat_toNat c).symm
    rcases h with h | h | h | h | h | h <;>
      · rw [hc, h]
        decide

theorem wordChar_not_pyspace {c : Char} (h : wordChar c = true) : isPySpace c = false := by
  by_contra hcon
  have hsp : isPySpace c = true := by
    cases hx : isPySpace c
    · exact absurd hx hcon
    · rfl
  rw [isPySpace_iff_toNat] at hsp
  simp only [wordChar, Bool.or_eq_true, Bool.and_eq_true, decide_eq_true_eq] at h
  omega

/-- Replace every newline character by a space (the net effect of the
line rejoin on texts whose newlines all sit inside string values). -/
def replaceNlSp (l : Str) : Str := l.map (fun c => if c = '\n' then ' ' else c)

theorem replaceNlSp_append (x y : Str) :
    replaceNlSp (x ++ y) = replaceNlSp x ++ replaceNlSp y := by
  simp [replaceNlSp]

theorem replaceNlSp_eq_self {l : Str} (h : '\n' ∉ l) : replaceNlSp l = l := by
  induction l with
  | nil => rfl
  | cons c t ih =>
    have hc : c ≠ '\n' := fun hx => h (hx ▸ List.mem_cons_self c t)
    simp only [replaceNlSp, List.map_cons]
    rw [if_neg hc]
    have := ih (fun hx => h (List.mem_cons_of_mem c hx))
    simp only [replaceNlSp] at this
    rw [this]

theorem splitNl_nl_free {l : Str} (h : '\n' ∉ l) : splitNl l = [l] := by
  induction l with
  | nil => rfl
  | cons c t ih =>
    have hc : c ≠ '\n' := fun hx => h (hx ▸ List.mem_cons_self c t)
    have ht := ih (fun hx => h (List.mem_cons_of_mem c hx))
    simp [splitNl, hc, ht]

theorem splitNl_append_nl {A : Str} (B : Str) (h : '\n' ∉ A) :
    splitNl (A ++ '\n' :: B) = A :: splitNl B := by
  induction A with
  | nil => simp [splitNl]
  | cons a A' ih =>
    have ha : a ≠ '\n' := fun hx => h (hx ▸ List.mem_cons_self a A')
    have ht := ih (fun hx => h (List.mem_cons_of_mem a hx))
    simp [splitNl, ha, ht]

/-- First-occurrence split of a list at a given element. -/
theorem exists_first_split {c : Char} {l : Str} (h : c ∈ l) :
    ∃ A B, l = A ++ c :: B ∧ c ∉ A := by
  induction l with
  | nil => simp at h
  | cons a t ih =>
    by_cases hac : a = c
    · exact ⟨[], t, by rw [hac]; rfl, by simp⟩
    · have hct : c ∈ t := by
        rcases List.mem_cons.1 h with h1 | h1
        · exact absurd h1.symm hac
        · exact h1
      rcases ih hct with ⟨A, B, hAB, hA⟩
      exact ⟨a :: A, B, by rw [hAB]; simp, by
        intro hmem
        rcases List.mem_cons.1 hmem with h1 | h1
        · exact hac h1.symm
        · exact hA h1⟩

/-- No two adjacent characters satisfy the forbidden-pair predicate. -/
def noAdjPair (p : Char → Char → Bool) : Str → Bool
  | [] => true
  | [_] => true
  | a :: b :: t => !p a b && noAdjPair p (b :: t)

theorem noAdjPair_tail {p : Char → Char → Bool} {a : Char} {t : Str}
    (h : noAdjPair p (a :: t) = true) : noAdjPair p t = true := by
  cases t with
  | nil => rfl
  | cons b t2 =>
    simp only [noAdjPair, Bool.and_eq_true] at h
    exact h.2

theorem noAdjPair_head {p : Char → Char → Bool} {a b : Char} {t : Str}
    (h : noAdjPair p (a :: b :: t) = true) : p a b = false := by
  simp only [noAdjPair, Bool.and_eq_true] at h
  simpa using h.1

theorem noAdjPair_append {p : Char → Char → Bool} : ∀ {x y : Str},
    noAdjPair p x = true → noAdjPair p y = true →
    (∀ a b, x.getLast? = some a → y.head? = some b → p a b = false) →
    noAdjPair p (x ++ y) = true := by
  intro x
  induction x with
  | nil => intro y _ hy _; simpa using hy
  | cons a t ih =>
    intro y hx hy hbound
    cases t with
    | nil =>
      cases y with
      | nil => simpa using hx
      | cons b y2 =>
        have hb := hbound a b (by simp) (by simp)
        simp only [List.singleton_append, noAdjPair, hb, Bool.not_false, Bool.true_and]
        exact hy
    | cons a2 t2 =>
      have hx2 : noAdjPair p (a2 :: t2) = true := noAdjPair_tail hx
      have hbound2 : ∀ c b, (a2 :: t2).getLast? = some c → y.head? = some b →
          p c b = false := by
        intro c b hc hb
        refine hbound c b ?_ hb
        rw [List.getLast?_cons_cons]
        exact hc
      have := ih hx2 hy hbound2
      have hhead := noAdjPair_head hx
      simp only [List.cons_append] at this
      simp only [List.cons_append, noAdjPair, Bool.and_eq_true]
      exact ⟨by simp [hhead], this⟩

theorem noAdjPair_of_all_fst {p : Char → Char → Bool} {l : Str}
    (h : ∀ a ∈ l, ∀ b, p a b = false) : noAdjPair p l = true := by
  induction l with
  | nil => rfl
  | cons a t ih =>
    cases t with
    | nil => rfl
    | cons b t2 =>
      simp only [noAdjPair, Bool.and_eq_true]
      refine ⟨by simp [h a (by simp) b], ih ?_⟩
      intro x hx b2
      exact h x (List.mem_cons_of_mem a hx) b2

theorem pyReplaceChar_not_mem {pat : Char} {rep l : Str} (h : pat ∉ l) :
    pyReplaceChar pat rep l = l := by
  induction l with
  | nil => rfl
  | cons c t ih =>
    have hc : c ≠ pat := fun hx => h (hx ▸ List.mem_cons_self c t)
    simp only [pyReplaceChar, if_neg hc]
    rw [ih (fun hx => h (List.mem_cons_of_mem c hx))]

theorem pyReplaceCRLF_not_mem {rep : Str} : ∀ {l : Str}, '\r' ∉ l →
    pyReplaceCRLF rep l = l := by
  intro l
  induction l with
  | nil => intro _; rfl
  | cons c t ih =>
    intro h
    have hc : c ≠ '\r' := fun hx => h (hx ▸ List.mem_cons_self c t)
    cases t with
    | nil => simp [pyReplaceCRLF]
    | cons d t2 =>
      have hcd : ¬(c = '\r' ∧ d = '\n') := fun hx => hc hx.1
      simp only [pyReplaceCRLF, if_neg hcd]
      rw [ih (fun hx => h (List.mem_cons_of_mem c hx))]

theorem filter_ctrl_id {l : Str} (h : ∀ c ∈ l, isCtrlStrip c = false) :
    l.filter (fun c => !isCtrlStrip c) = l := by
  rw [List.filter_eq_self]
  intro a ha
  simp [h a ha]

/-- Space-pair predicate: two adjacent Python-whitespace characters. -/
def pySpacePair (a b : Char) : Bool := isPySpace a && isPySpace b

/-- Space-space pair predicate. -/
def spacePair (a b : Char) : Bool := (a = ' ') && (b = ' ')

theorem collapseGo_id : ∀ {l : Str} (prevSp : Bool),
    (prevSp = true → l.head? ≠ some ' ') → noAdjPair spacePair l = true →
    collapseGo prevSp l = l := by
  intro l
  induction l with
  | nil => intro prevSp _ _; rfl
  | cons c t ih =>
    intro prevSp hhead hadj
    by_cases hc : c = ' '
    · have hp : prevSp = false := by
        cases hps : prevSp
        · rfl
        · exact absurd (by simp [hc]) (hhead hps)
      subst hp
      subst hc
      have hth : t.head? ≠ some ' ' := by
        cases t with
        | nil => simp
        | cons b t2 =>
          have := noAdjPair_head hadj
          simp only [spacePair, Bool.and_eq_true, decide_eq_true_eq] at this
          intro hx
          simp only [List.head?_cons, Option.some.injEq] at hx
          simp [hx] at this
      rw [show collapseGo false (' ' :: t) = ' ' :: collapseGo true t from by
        simp [collapseGo]]
      rw [ih true (fun _ => hth) (noAdjPair_tail hadj)]
    · rw [show collapseGo prevSp (c :: t) = c :: collapseGo false t from by
        simp [collapseGo, hc]]
      rw [ih false (by simp) (noAdjPair_tail hadj)]

theorem collapseSpaces_id {l : Str} (hadj : noAdjPair spacePair l = true) :
    collapseSpaces l = l :=
  collapseGo_id false (by simp) hadj

theorem pyLstrip_cons {c : Char} {t : Str} (h : isPySpace c = false) :
    pyLstrip (c :: t) = c :: t := by
  simp [pyLstrip, List.dropWhile_cons, h]

theorem pyRstrip_append_last {x : Str} {d : Char} (h : isPySpace d = false) :
    pyRstrip (x ++ [d]) = x ++ [d] := by
  simp [pyRstrip, List.reverse_append, List.dropWhile_cons, h]

theorem pyStrip_bounded {c d : Char} {mid : Str} (hc : isPySpace c = false)
    (hd : isPySpace d = false) : pyStrip (c :: (mid ++ [d])) = c :: (mid ++ [d]) := by
  have h1 : pyLstrip (c :: (mid ++ [d])) = c :: (mid ++ [d]) := pyLstrip_cons hc
  have h2 : pyRstrip ((c :: mid) ++ [d]) = (c :: mid) ++ [d] := pyRstrip_append_last hd
  simp only [pyStrip, h1]
  simpa using h2

theorem takeUpToLastP_append_last {p : Char → Bool} {x : Str} {d : Char}
    (h : p d = true) : takeUpToLastP p (x ++ [d]) = x ++ [d] := by
  simp [takeUpToLastP, List.reverse_append, List.dropWhile_cons, h]

theorem takeUpToLastP_append_bad_tail {p : Char → Bool} {x tail : Str} {d : Char}
    (hd : p d = true) (htail : ∀ c ∈ tail, p c = false) :
    takeUpToLastP p ((x ++ [d]) ++ tail) = x ++ [d] := by
  have hdrop : ∀ (a b : Str), (∀ c ∈ a, (fun c => !p c) c = true) →
      (a ++ b).dropWhile (fun c => !p c) = b.dropWhile (fun c => !p c) := by
    intro a
    induction a with
    | nil => intro b _; rfl
    | cons z zs ih =>
      intro b hall
      simp only [List.cons_append, List.dropWhile_cons, hall z (by simp), if_true]
      exact ih b (fun c hc => hall c (List.mem_cons_of_mem z hc))
  simp only [takeUpToLastP, List.reverse_append]
  rw [hdrop tail.reverse (([d]).reverse ++ x.reverse) (by
    intro c hc
    simp only [Bool.not_eq_true']
    exact htail c (List.mem_reverse.1 hc))]
  simp [List.dropWhile_cons, hd]

theorem trimToFirstBracket_lbrack (x : Str) :
    trimToFirstBracket ('[' :: x) = '[' :: x := by
  simp [trimToFirstBracket, List.dropWhile_cons]

theorem truncAfterLastBracket_tail {x tail : Str}
    (htail : ∀ c ∈ tail, c ≠ ']' ∧ c ≠ cbr) :
    truncAfterLastBracket ((x ++ [']']) ++ tail) = x ++ [']'] := by
  have hmem : ']' ∈ (x ++ [']']) ++ tail := by simp
  rw [truncAfterLastBracket, if_pos (Or.inl hmem)]
  exact takeUpToLastP_append_bad_tail (by decide) (by
    intro c hc
    rcases htail c hc with ⟨h1, h2⟩
    simp [h1, h2])

theorem searchJsonArrObj_bracketed (body : Str) :
    searchJsonArrObj ('[' :: (body ++ [']'])) = some ('[' :: (body ++ [']'])) := by
  have hmem : ']' ∈ body ++ [']'] := by simp
  simp only [searchJsonArrObj, if_pos rfl, hmem, if_pos trivial]
  rw [takeUpToLastP_append_last (by decide)]

/-- Pair predicate for a citation-tag opener: `[` followed by `c`. -/
def brackCPair (a b : Char) : Bool := (a = '[') && (b = 'c')

theorem isPrefixOf_head {p0 c : Char} {ps t : Str}
    (h : (p0 :: ps).isPrefixOf (c :: t) = true) : c = p0 := by
  simp only [List.isPrefixOf, Bool.and_eq_true, beq_iff_eq] at h
  exact h.1.symm

theorem isPrefixOf_two {p0 p1 : Char} {ps : Str} {c : Char} {t : Str}
    (h : (p0 :: p1 :: ps).isPrefixOf (c :: t) = true) :
    c = p0 ∧ t.head? = some p1 := by
  cases t with
  | nil => simp [List.isPrefixOf] at h
  | cons d t2 =>
    simp only [List.isPrefixOf, Bool.and_eq_true, beq_iff_eq] at h
    exact ⟨h.1.symm, by simp [h.2.1.symm]⟩

theorem cite_nested_prefix_false {c : Char} {t : Str}
    (h : noAdjPair brackCPair (c :: t) = true) :
    "[cite:[".toList.isPrefixOf (c :: t) = false := by
  cases hx : "[cite:[".toList.isPrefixOf (c :: t)
  · rfl
  · exfalso
    have hdec : "[cite:[".toList = '[' :: 'c' :: "ite:[".toList := by decide
    rw [hdec] at hx
    rcases isPrefixOf_two hx with ⟨hc, hhead⟩
    cases t with
    | nil => simp at hhead
    | cons d t2 =>
      simp only [List.head?_cons, Option.some.injEq] at hhead
      have := noAdjPair_head h
      rw [hc, hhead] at this
      simp [brackCPair] at this

theorem cite_simple_prefix_false {c : Char} {t : Str}
    (h : noAdjPair brackCPair (c :: t) = true) :
    "[cite:".toList.isPrefixOf (c :: t) = false := by
  cases hx : "[cite:".toList.isPrefixOf (c :: t)
  · rfl
  · exfalso
    have hdec : "[cite:".toList = '[' :: 'c' :: "ite:".toList := by decide
    rw [hdec] at hx
    rcases isPrefixOf_two hx with ⟨hc, hhead⟩
    cases t with
    | nil => simp at hhead
    | cons d t2 =>
      simp only [List.head?_cons, Option.some.injEq] at hhead
      have := noAdjPair_head h
      rw [hc, hhead] at this
      simp [brackCPair] at this

theorem removeCiteNested_id : ∀ {l : Str}, noAdjPair brackCPair l = true →
    removeCiteNested l = l := by
  intro l
  induction l with
  | nil => intro _; simp [removeCiteNested]
  | cons c t ih =>
    intro h
    have hpre := cite_nested_prefix_false h
    simp only [removeCiteNested, hpre, Bool.false_eq_true, if_false]
    rw [ih (noAdjPair_tail h)]

theorem removeCiteSimple_id : ∀ {l : Str}, noAdjPair brackCPair l = true →
    removeCiteSimple l = l := by
  intro l
  induction l with
  | nil => intro _; simp [removeCiteSimple]
  | cons c t ih =>
    intro h
    have hpre := cite_simple_prefix_false h
    simp only [removeCiteSimple, hpre, Bool.false_eq_true, if_false]
    rw [ih (noAdjPair_tail h)]

theorem subFenceJson_append_no_tick : ∀ {z : Str} (y : Str), btk ∉ z →
    subFenceJson (z ++ y) = z ++ subFenceJson y := by
  intro z
  induction z with
  | nil => intro y _; rfl
  | cons c z' ih =>
    intro y h
    have hc : c ≠ btk := fun hx => h (hx ▸ List.mem_cons_self c z')
    have hpre : "```json".toList.isPrefixOf (c :: (z' ++ y)) = false := by
      cases hx : "```json".toList.isPrefixOf (c :: (z' ++ y))
      · rfl
      · exfalso
        have hdec : "```json".toList = btk :: "``json".toList := by decide
        rw [hdec] at hx
        exact hc (isPrefixOf_head hx)
    simp only [List.cons_append, subFenceJson, hpre, Bool.false_eq_true, if_false]
    rw [ih y (fun hx => h (List.mem_cons_of_mem c hx))]

theorem subFenceAny_append_no_tick : ∀ {z : Str} (y : Str), btk ∉ z →
    subFenceAny (z ++ y) = z ++ subFenceAny y := by
  intro z
  induction z with
  | nil => intro y _; rfl
  | cons c z' ih =>
    intro y h
    have hc : c ≠ btk := fun hx => h (hx ▸ List.mem_cons_self c z')
    have hpre : "```".toList.isPrefixOf (c :: (z' ++ y)) = false := by
      cases hx : "```".toList.isPrefixOf (c :: (z' ++ y))
      · rfl
      · exfalso
        have hdec : "```".toList = btk :: "``".toList := by decide
        rw [hdec] at hx
        exact hc (isPrefixOf_head hx)
    simp only [List.cons_append, subFenceAny, hpre, Bool.false_eq_true, if_false]
    rw [ih y (fun hx => h (List.mem_cons_of_mem c hx))]

theorem subFenceJson_fence (rest : Str) :
    subFenceJson ("```json".toList ++ rest) = subFenceJson (rest.dropWhile isPySpace) := by
  have hdec : "```json".toList = btk :: "``json".toList := by decide
  have hpre : "```json".toList.isPrefixOf ("```json".toList ++ rest) = true := by
    rw [List.isPrefixOf_iff_prefix]
    exact ⟨rest, rfl⟩
  have hshape : "```json".toList ++ rest = btk :: ("``json".toList ++ rest) := by
    rw [hdec]
    rfl
  rw [hshape] at hpre ⊢
  simp only [subFenceJson, hpre, if_true]
  have hdrop : (btk :: ("``json".toList ++ rest)).drop 7 = rest := by
    rw [← hshape]
    have hlen : ("```json".toList).length = 7 := by decide
    rw [← hlen, List.drop_left]
  rw [hdrop]

theorem subFenceAny_fence (rest : Str) :
    subFenceAny ("```".toList ++ rest) = subFenceAny (rest.dropWhile isPySpace) := by
  have hdec : "```".toList = btk :: "``".toList := by decide
  have hpre : "```".toList.isPrefixOf ("```".toList ++ rest) = true := by
    rw [List.isPrefixOf_iff_prefix]
    exact ⟨rest, rfl⟩
  have hshape : "```".toList ++ rest = btk :: ("``".toList ++ rest) := by
    rw [hdec]
    rfl
  rw [hshape] at hpre ⊢
  simp only [subFenceAny, hpre, if_true]
  have hdrop : (btk :: ("``".toList ++ rest)).drop 3 = rest := by
    rw [← hshape]
    have hlen : ("```".toList).length = 3 := by decide
    rw [← hlen, List.drop_left]
  rw [hdrop]

theorem subFenceAny_newline_fence :
    subFenceAny ('\n' :: "```".toList) = ['\n'] := by
  have h1 : subFenceAny ('\n' :: "```".toList) = '\n' :: subFenceAny "```".toList := by
    have := @subFenceAny_append_no_tick ['\n'] "```".toList (by decide)
    simpa using this
  have h2 : subFenceAny "```".toList = [] := by
    have := subFenceAny_fence []
    simpa [subFenceAny] using this
  rw [h1, h2]

/-- In-string state after scanning a text (no escapes present): toggles
at each double quote. -/
def scanQ (b : Bool) (l : Str) : Bool :=
  l.foldl (fun st c => if c = dq then !st else st) b

/-- Every newline in the text occurs while the in-string state is
`true`. -/
def NlInsideB : Bool → Str → Bool
  | _, [] => true
  | b, c :: t => (if c = '\n' then b else true) && NlInsideB (if c = dq then !b else b) t

theorem scanQ_append (b : Bool) (x y : Str) : scanQ b (x ++ y) = scanQ (scanQ b x) y := by
  simp [scanQ, List.foldl_append]

theorem NlInsideB_append : ∀ (x : Str) (b : Bool) (y : Str),
    NlInsideB b (x ++ y) = (NlInsideB b x && NlInsideB (scanQ b x) y) := by
  intro x
  induction x with
  | nil => intro b y; simp [NlInsideB, scanQ]
  | cons c t ih =>
    intro b y
    have h1 : NlInsideB b ((c :: t) ++ y) =
        ((if c = '\n' then b else true) && NlInsideB (if c = dq then !b else b) (t ++ y)) :=
      rfl
    have h2 : NlInsideB b (c :: t) =
        ((if c = '\n' then b else true) && NlInsideB (if c = dq then !b else b) t) := rfl
    have h3 : scanQ b (c :: t) = scanQ (if c = dq then !b else b) t := by
      simp [scanQ, List.foldl_cons]
    rw [h1, h2, h3, ih, Bool.and_assoc]

/-- Number of double quotes in a text. -/
def countDq : Str → Nat
  | [] => 0
  | c :: t => (if c = dq then 1 else 0) + countDq t

theorem cuqGo_no_bsl : ∀ {l : Str} (prev : Option Char), bsl ∉ l → prev ≠ some bsl →
    cuqGo prev l = countDq l := by
  intro l
  induction l with
  | nil => intro prev _ _; simp [cuqGo, countDq]
  | cons c t ih =>
    intro prev h hprev
    have hc : c ≠ bsl := fun hx => h (hx ▸ List.mem_cons_self c t)
    have ht := ih (some c) (fun hx => h (List.mem_cons_of_mem c hx))
      (fun hx => hc (by injection hx))
    simp only [cuqGo, ht, countDq]
    congr 1
    by_cases hcd : c = dq
    · simp [hcd, hprev]
    · simp [hcd]

theorem scanQ_parity : ∀ (l : Str) (b : Bool),
    scanQ b l = (if countDq l % 2 = 1 then !b else b) := by
  intro l
  induction l with
  | nil => intro b; simp [scanQ, countDq]
  | cons c t ih =>
    intro b
    have hstep : scanQ b (c :: t) = scanQ (if c = dq then !b else b) t := by
      simp [scanQ, List.foldl_cons]
    rw [hstep, ih]
    by_cases hc : c = dq
    · have hcount : countDq (c :: t) = 1 + countDq t := by
        simp [countDq, hc]
      rw [hcount]
      by_cases hp : countDq t % 2 = 1
      · have h2 : ¬((1 + countDq t) % 2 = 1) := by omega
        simp [hp, hc, h2]
      · have h2 : (1 + countDq t) % 2 = 1 := by omega
        simp [hp, hc, h2]
    · have hcount : countDq (c :: t) = countDq t := by
        simp [countDq, hc]
      rw [hcount]
      simp [hc]

theorem nextState_eq_scanQ {l : Str} (b : Bool) (h : bsl ∉ l) :
    (if countUnescapedQuotes l % 2 = 1 then !b else b) = scanQ b l := by
  rw [scanQ_parity]
  unfold countUnescapedQuotes
  rw [cuqGo_no_bsl none h (by simp)]

theorem noAdjPair_suffix {p : Char → Char → Bool} : ∀ {x y : Str},
    noAdjPair p (x ++ y) = true → noAdjPair p y = true := by
  intro x
  induction x with
  | nil => intro y h; simpa using h
  | cons c t ih =>
    intro y h
    exact ih (noAdjPair_tail h)

theorem pyLstrip_id {l : Str} (h : ∀ c, l.head? = some c → isPySpace c = false) :
    pyLstrip l = l := by
  cases l with
  | nil => rfl
  | cons c t => exact pyLstrip_cons (h c (by simp))

theorem pyRstrip_id {l : Str} (hne : l ≠ [])
    (h : ∀ c, l.getLast? = some c → isPySpace c = false) : pyRstrip l = l := by
  rcases List.eq_nil_or_concat l with h0 | ⟨z, d, hzd⟩
  · exact absurd h0 hne
  · rw [hzd, List.concat_eq_append]
    exact pyRstrip_append_last (h d (by rw [hzd, List.concat_eq_append]; simp))

theorem getLast?_append_right {x y : Str} (h : y ≠ []) :
    (x ++ y).getLast? = y.getLast? := by
  rcases List.eq_nil_or_concat y with h0 | ⟨z, d, hzd⟩
  · exact absurd h0 h
  · rw [hzd, List.concat_eq_append, ← List.append_assoc]
    simp

theorem rejoinGo_cons_inside (line : Str) (rest : List Str) (J : Str) :
    rejoinGo (line :: rest) [J] true =
      rejoinGo rest [pyRstrip J ++ ' ' :: pyLstrip line]
        (if countUnescapedQuotes line % 2 = 1 then false else true) := by
  simp [rejoinGo, pyUpdateLast]

theorem rejoinGo_cons_outside (line : Str) (rest cleaned : List Str) :
    rejoinGo (line :: rest) cleaned false =
      rejoinGo rest (cleaned ++ [line])
        (if countUnescapedQuotes line % 2 = 1 then true else false) := by
  simp [rejoinGo]

theorem replaceNlSp_cons_nl (t : Str) : replaceNlSp ('\n' :: t) = ' ' :: replaceNlSp t := by
  simp [replaceNlSp]

theorem NlInsideB_split {b : Bool} {A B2 : Str}
    (h : NlInsideB b (A ++ '\n' :: B2) = true) :
    scanQ b A = true ∧ NlInsideB true B2 = true := by
  rw [NlInsideB_append] at h
  simp only [Bool.and_eq_true] at h
  have h2 := h.2
  have hne : ('\n' : Char) ≠ dq := by decide
  simp only [NlInsideB, if_pos rfl, if_neg hne, Bool.and_eq_true] at h2
  obtain ⟨hs, hb⟩ := h2
  exact ⟨hs, hs ▸ hb⟩

/-- Forbidden pair for the rejoin analysis: a whitespace character
adjacent to a newline (on either side). -/
def nlSpacePair (a b : Char) : Bool :=
  (isPySpace a && b = '\n') || (a = '\n' && isPySpace b)

theorem last_nonspace_before_nl {A B2 : Str}
    (hadj : noAdjPair nlSpacePair (A ++ '\n' :: B2) = true) :
    ∀ c, A.getLast? = some c → isPySpace c = false := by
  intro c hc
  rcases List.eq_nil_or_concat A with h0 | ⟨z, d, hzd⟩
  · rw [h0] at hc
    simp at hc
  · rw [hzd, List.concat_eq_append, List.getLast?_concat] at hc
    have hcd : c = d := Eq.symm (by simpa using hc)
    subst hcd
    have hshape : A ++ '\n' :: B2 = z ++ (c :: '\n' :: B2) := by
      rw [hzd, List.concat_eq_append, List.append_assoc]
      rfl
    rw [hshape] at hadj
    have h1 := noAdjPair_head (noAdjPair_suffix hadj)
    cases hx : isPySpace c
    · rfl
    · simp [nlSpacePair, hx] at h1

theorem head_nonspace_after_nl {A B2 : Str}
    (hadj : noAdjPair nlSpacePair (A ++ '\n' :: B2) = true) :
    ∀ c, B2.head? = some c → isPySpace c = false := by
  intro c hc
  cases B2 with
  | nil => simp at hc
  | cons b0 B2t =>
    have hcb : b0 = c := by simpa using hc
    subst hcb
    have h1 := noAdjPair_head (noAdjPair_suffix hadj)
    cases hx : isPySpace b0
    · rfl
    · simp [nlSpacePair, hx] at h1

theorem rejoin_inside : ∀ (n : Nat) (B J : Str), B.length ≤ n →
    bsl ∉ B → NlInsideB true B = true → noAdjPair nlSpacePair B = true →
    (∀ c, B.head? = some c → isPySpace c = false) →
    (∀ c, B.getLast? = some c → isPySpace c = false) →
    J ≠ [] →
    (∀ c, J.getLast? = some c → isPySpace c = false) →
    rejoinGo (splitNl B) [J] true = .ok [J ++ ' ' :: replaceNlSp B] := by
  intro n
  induction n with
  | zero =>
    intro B J hlen _ _ _ _ _ hJne hJlast
    have hB0 : B = [] := List.length_eq_zero.1 (Nat.le_zero.1 hlen)
    subst hB0
    rw [show splitNl [] = [[]] from rfl, show rejoinGo [[]] [J] true =
      rejoinGo [] [pyRstrip J ++ ' ' :: pyLstrip []] (if countUnescapedQuotes [] % 2 = 1
        then false else true) from rejoinGo_cons_inside [] [] J]
    rw [pyRstrip_id hJne hJlast]
    rfl
  | succ n ih =>
    intro B J hlen hbsl hnlin hadj hhead hlast hJne hJlast
    by_cases hnl : '\n' ∈ B
    · rcases exists_first_split hnl with ⟨A, B2, hAB, hAnl⟩
      subst hAB
      have hbslA : bsl ∉ A := fun hx => hbsl (List.mem_append.2 (Or.inl hx))
      have hbslB2 : bsl ∉ B2 := fun hx =>
        hbsl (List.mem_append.2 (Or.inr (List.mem_cons_of_mem _ hx)))
      have hAne : A ≠ [] := by
        intro h0
        subst h0
        have := hhead '\n' (by simp)
        simp [isPySpace] at this
      have hheadA : ∀ c, A.head? = some c → isPySpace c = false := by
        intro c hc
        refine hhead c ?_
        cases A with
        | nil => exact absurd rfl hAne
        | cons a0 At => simpa using hc
      have hlastA := last_nonspace_before_nl hadj
      rcases NlInsideB_split hnlin with ⟨hsA, hnlB2⟩
      have hB2ne : B2 ≠ [] := by
        intro h0
        subst h0
        have hg : (A ++ ['\n']).getLast? = some '\n' := by
          rw [getLast?_append_right (by simp)]
          rfl
        have := hlast '\n' hg
        simp [isPySpace] at this
      have hheadB2 := head_nonspace_after_nl hadj
      have hlastB2 : ∀ c, B2.getLast? = some c → isPySpace c = false := by
        intro c hc
        refine hlast c ?_
        rw [getLast?_append_right (by simp)]
        rw [show ('\n' :: B2).getLast? = B2.getLast? from by
          cases B2 with
          | nil => exact absurd rfl hB2ne
          | cons b0 B2t => rfl]
        exact hc
      have hadjB2 : noAdjPair nlSpacePair B2 = true := by
        have := noAdjPair_suffix hadj
        exact noAdjPair_tail this
      have hsplit : splitNl (A ++ '\n' :: B2) = A :: splitNl B2 := splitNl_append_nl B2 hAnl
      rw [hsplit, rejoinGo_cons_inside]
      rw [pyRstrip_id hJne hJlast, pyLstrip_id hheadA]
      have h1 : (if countUnescapedQuotes A % 2 = 1 then !true else true) = scanQ true A :=
        nextState_eq_scanQ true hbslA
      rw [hsA] at h1
      have hstate : (if countUnescapedQuotes A % 2 = 1 then false else true) = true := by
        simpa using h1
      rw [hstate]
      have hlen2 : B2.length ≤ n := by
        have : (A ++ '\n' :: B2).length = A.length + 1 + B2.length := by
          simp only [List.length_append, List.length_cons]
          omega
        rw [this] at hlen
        omega
      have hJne2 : J ++ ' ' :: A ≠ [] := by simp
      have hJlast2 : ∀ c, (J ++ ' ' :: A).getLast? = some c → isPySpace c = false := by
        intro c hc
        rw [getLast?_append_right (by simp)] at hc
        rw [show (' ' :: A).getLast? = A.getLast? from by
          cases A with
          | nil => exact absurd rfl hAne
          | cons a0 At => rfl] at hc
        exact hlastA c hc
      rw [ih B2 (J ++ ' ' :: A) hlen2 hbslB2 hnlB2 hadjB2 hheadB2 hlastB2 hJne2 hJlast2]
      rw [replaceNlSp_append, replaceNlSp_eq_self hAnl, replaceNlSp_cons_nl]
      simp
    · rw [splitNl_nl_free hnl, rejoinGo_cons_inside]
      rw [pyRstrip_id hJne hJlast, pyLstrip_id hhead]
      rw [replaceNlSp_eq_self hnl]
      rfl

theorem rejoin_top {S : Str} (hbsl : bsl ∉ S) (hnlin : NlInsideB false S = true)
    (hadj : noAdjPair nlSpacePair S = true)
    (hhead : ∀ c, S.head? = some c → isPySpace c = false)
    (hlast : ∀ c, S.getLast? = some c → isPySpace c = false) :
    rejoinGo (splitNl S) [] false = .ok [replaceNlSp S] := by
  by_cases hnl : '\n' ∈ S
  · rcases exists_first_split hnl with ⟨A, B2, hAB, hAnl⟩
    subst hAB
    have hbslA : bsl ∉ A := fun hx => hbsl (List.mem_append.2 (Or.inl hx))
    have hbslB2 : bsl ∉ B2 := fun hx =>
      hbsl (List.mem_append.2 (Or.inr (List.mem_cons_of_mem _ hx)))
    have hAne : A ≠ [] := by
      intro h0
      subst h0
      have := hhead '\n' (by simp)
      simp [isPySpace] at this
    have hheadA : ∀ c, A.head? = some c → isPySpace c = false := by
      intro c hc
      refine hhead c ?_
      cases A with
      | nil => exact absurd rfl hAne
      | cons a0 At => simpa using hc
    have hlastA := last_nonspace_before_nl hadj
    rcases NlInsideB_split hnlin with ⟨hsA, hnlB2⟩
    have hB2ne : B2 ≠ [] := by
      intro h0
      subst h0
      have hg : (A ++ ['\n']).getLast? = some '\n' := by
        rw [getLast?_append_right (by simp)]
        rfl
      have := hlast '\n' hg
      simp [isPySpace] at this
    have hheadB2 := head_nonspace_after_nl hadj
    have hlastB2 : ∀ c, B2.getLast? = some c → isPySpace c = false := by
      intro c hc
      refine hlast c ?_
      rw [getLast?_append_right (by simp)]
      rw [show ('\n' :: B2).getLast? = B2.getLast? from by
        cases B2 with
        | nil => exact absurd rfl hB2ne
        | cons b0 B2t => rfl]
      exact hc
    have hadjB2 : noAdjPair nlSpacePair B2 = true := by
      have := noAdjPair_suffix hadj
      exact noAdjPair_tail this
    have hsplit : splitNl (A ++ '\n' :: B2) = A :: splitNl B2 := splitNl_append_nl B2 hAnl
    rw [hsplit, rejoinGo_cons_outside]
    have h1 : (if countUnescapedQuotes A % 2 = 1 then !false else false) = scanQ false A :=
      nextState_eq_scanQ false hbslA
    rw [hsA] at h1
    have hstate : (if countUnescapedQuotes A % 2 = 1 then true else false) = true := by
      simpa using h1
    rw [hstate]
    rw [show ([] : List Str) ++ [A] = [A] from rfl]
    rw [rejoin_inside B2.length B2 A (le_refl _) hbslB2 hnlB2 hadjB2 hheadB2 hlastB2
      hAne hlastA]
    rw [replaceNlSp_append, replaceNlSp_eq_self hAnl, replaceNlSp_cons_nl]
  · rw [splitNl_nl_free hnl, rejoinGo_cons_outside]
    rw [replaceNlSp_eq_self hnl]
    rfl

theorem goodBodyChar_facts {c : Char} (h : goodBodyChar c = true ∨ c = '[' ∨ c = ']') :
    c ≠ Char.ofNat 160 ∧ c ≠ Char.ofNat 8203 ∧ c ≠ Char.ofNat 8232 ∧
    c ≠ Char.ofNat 8233 ∧ c ≠ '\r' ∧ c ≠ '\t' ∧ isCtrlStrip c = false ∧ c ≠ bsl := by
  have htn : (48 ≤ c.toNat ∧ c.toNat ≤ 57) ∨ (65 ≤ c.toNat ∧ c.toNat ≤ 90) ∨
      (97 ≤ c.toNat ∧ c.toNat ≤ 122) ∨ c.toNat = 32 ∨ c.toNat = 10 ∨ c.toNat = 34 ∨
      c.toNat = 58 ∨ c.toNat = 44 ∨ c.toNat = 123 ∨ c.toNat = 125 ∨ c.toNat = 91 ∨
      c.toNat = 93 := by
    rcases h with h | h | h
    · simp only [goodBodyChar, wordChar, Bool.or_eq_true, Bool.and_eq_true,
        decide_eq_true_eq] at h
      omega
    · have : c.toNat = 91 := by rw [h]; decide
      omega
    · have : c.toNat = 93 := by rw [h]; decide
      omega
  refine ⟨?_, ?_, ?_, ?_, ?_, ?_, ?_, ?_⟩
  · refine char_ne_of_toNat_ne ?_
    have hv : (Char.ofNat 160).toNat = 160 := by decide
    rw [hv]
    omega
  · refine char_ne_of_toNat_ne ?_
    have hv : (Char.ofNat 8203).toNat = 8203 := by decide
    rw [hv]
    omega
  · refine char_ne_of_toNat_ne ?_
    have hv : (Char.ofNat 8232).toNat = 8232 := by decide
    rw [hv]
    omega
  · refine char_ne_of_toNat_ne ?_
    have hv : (Char.ofNat 8233).toNat = 8233 := by decide
    rw [hv]
    omega
  · refine char_ne_of_toNat_ne ?_
    have hv : ('\r').toNat = 13 := by decide
    rw [hv]
    omega
  · refine char_ne_of_toNat_ne ?_
    have hv : ('\t').toNat = 9 := by decide
    rw [hv]
    omega
  · cases hx : isCtrlStrip c
    · rfl
    · exfalso
      simp only [isCtrlStrip, Bool.or_eq_true, Bool.and_eq_true, decide_eq_true_eq] at hx
      omega
  · refine char_ne_of_toNat_ne ?_
    have hv : bsl.toNat = 92 := by decide
    rw [hv]
    omega

theorem goodBodyChar_ne_lbrack {c : Char} (h : goodBodyChar c = true) : c ≠ '[' := by
  refine char_ne_of_toNat_ne ?_
  simp only [goodBodyChar, wordChar, Bool.or_eq_true, Bool.and_eq_true,
    decide_eq_true_eq] at h
  have hv : ('[').toNat = 91 := by decide
  rw [hv]
  omega

theorem goodBodyChar_ne_btk {c : Char} (h : goodBodyChar c = true) : c ≠ btk := by
  refine char_ne_of_toNat_ne ?_
  simp only [goodBodyChar, wordChar, Bool.or_eq_true, Bool.and_eq_true,
    decide_eq_true_eq] at h
  have hv : btk.toNat = 96 := by decide
  rw [hv]
  omega

theorem intercalate_single (sep x : Str) : List.intercalate sep [x] = x := by
  simp [List.intercalate]

theorem noAdjPair_weaken {p q : Char → Char → Bool}
    (himp : ∀ a b, q a b = true → p a b = true) : ∀ {l : Str},
    noAdjPair p l = true → noAdjPair q l = true := by
  intro l
  induction l with
  | nil => intro _; rfl
  | cons a t ih =>
    intro h
    cases t with
    | nil => rfl
    | cons b t2 =>
      have hh := noAdjPair_head h
      have ht := ih (noAdjPair_tail h)
      simp only [noAdjPair, Bool.and_eq_true]
      refine ⟨?_, ht⟩
      cases hq : q a b
      · simp
      · have := himp a b hq
        rw [this] at hh
        exact absurd hh (by simp)

theorem pySpacePair_of_nlSpacePair (a b : Char) (h : nlSpacePair a b = true) :
    pySpacePair a b = true := by
  simp only [nlSpacePair, Bool.or_eq_true, Bool.and_eq_true, decide_eq_true_eq] at h
  simp only [pySpacePair, Bool.and_eq_true]
  rcases h with ⟨h1, h2⟩ | ⟨h1, h2⟩
  · exact ⟨h1, by rw [h2]; decide⟩
  · exact ⟨by rw [h1]; decide, h2⟩

theorem pySpace_of_replace_space {a : Char} (h : (if a = '\n' then ' ' else a) = ' ') :
    isPySpace a = true := by
  by_cases ha : a = '\n'
  · rw [ha]
    decide
  · rw [if_neg ha] at h
    rw [h]
    decide

theorem noAdjPair_replaceNlSp : ∀ {l : Str}, noAdjPair pySpacePair l = true →
    noAdjPair spacePair (replaceNlSp l) = true := by
  intro l
  induction l with
  | nil => intro _; rfl
  | cons a t ih =>
    intro h
    cases t with
    | nil => rfl
    | cons b t2 =>
      have hh := noAdjPair_head h
      have ht := ih (noAdjPair_tail h)
      have hshape : replaceNlSp (a :: b :: t2) =
          (if a = '\n' then ' ' else a) :: replaceNlSp (b :: t2) := rfl
      have hshape2 : replaceNlSp (b :: t2) =
          (if b = '\n' then ' ' else b) :: replaceNlSp t2 := rfl
      rw [hshape, hshape2]
      rw [hshape2] at ht
      simp only [noAdjPair, Bool.and_eq_true]
      refine ⟨?_, ht⟩
      have hpair : spacePair (if a = '\n' then ' ' else a)
          (if b = '\n' then ' ' else b) = false := by
        cases hsp : spacePair (if a = '\n' then ' ' else a) (if b = '\n' then ' ' else b)
        · rfl
        · exfalso
          simp only [spacePair, Bool.and_eq_true, decide_eq_true_eq] at hsp
          have ha := pySpace_of_replace_space hsp.1
          have hb := pySpace_of_replace_space hsp.2
          simp only [pySpacePair, ha, hb, Bool.and_self] at hh
          exact absurd hh (by simp)
      simp [hpair]

theorem clean_pre_good {body : Str}
    (hgood : ∀ c ∈ body, goodBodyChar c = true) :
    clean_pre ('[' :: (body ++ [']'])) = '[' :: (body ++ [']']) := by
  have hS : ∀ c ∈ '[' :: (body ++ [']']), goodBodyChar c = true ∨ c = '[' ∨ c = ']' := by
    intro c hc
    rcases List.mem_cons.1 hc with h | h
    · exact Or.inr (Or.inl h)
    · rcases List.mem_append.1 h with h2 | h2
      · exact Or.inl (hgood c h2)
      · exact Or.inr (Or.inr (by simpa using h2))
  have hfacts := fun c hc => goodBodyChar_facts (hS c hc)
  have h160 : Char.ofNat 160 ∉ '[' :: (body ++ [']']) := fun hm => (hfacts _ hm).1 rfl
  have h8203 : Char.ofNat 8203 ∉ '[' :: (body ++ [']']) := fun hm => (hfacts _ hm).2.1 rfl
  have h8232 : Char.ofNat 8232 ∉ '[' :: (body ++ [']']) :=
    fun hm => (hfacts _ hm).2.2.1 rfl
  have h8233 : Char.ofNat 8233 ∉ '[' :: (body ++ [']']) :=
    fun hm => (hfacts _ hm).2.2.2.1 rfl
  have hCR : '\r' ∉ '[' :: (body ++ [']']) := fun hm => (hfacts _ hm).2.2.2.2.1 rfl
  have hTab : '\t' ∉ '[' :: (body ++ [']']) := fun hm => (hfacts _ hm).2.2.2.2.2.1 rfl
  have hctrl : ∀ c ∈ '[' :: (body ++ [']']), isCtrlStrip c = false :=
    fun c hc => (hfacts c hc).2.2.2.2.2.2.1
  have h0 : (match searchJsonArrObj ('[' :: (body ++ [']'])) with
      | some m => m
      | none => '[' :: (body ++ [']'])) = '[' :: (body ++ [']']) := by
    rw [searchJsonArrObj_bracketed]
  simp only [clean_pre]
  rw [h0, pyReplaceChar_not_mem h160, pyReplaceChar_not_mem h8203,
    pyReplaceChar_not_mem h8232, pyReplaceChar_not_mem h8233,
    pyReplaceCRLF_not_mem hCR, pyReplaceChar_not_mem hCR,
    pyReplaceChar_not_mem hTab, filter_ctrl_id hctrl]

theorem bsl_not_mem_good {body : Str}
    (hgood : ∀ c ∈ body, goodBodyChar c = true) :
    bsl ∉ '[' :: (body ++ [']']) := by
  intro hm
  rcases List.mem_cons.1 hm with h | h
  · exact absurd h.symm (by decide)
  · rcases List.mem_append.1 h with h2 | h2
    · exact (goodBodyChar_facts (Or.inl (hgood _ h2))).2.2.2.2.2.2.2 rfl
    · have : bsl = ']' := by simpa using h2
      exact absurd this (by decide)

theorem clean_json_string_span {body : Str}
    (hgood : ∀ c ∈ body, goodBodyChar c = true)
    (hnlin : NlInsideB false ('[' :: (body ++ [']'])) = true)
    (hadj : noAdjPair nlSpacePair ('[' :: (body ++ [']'])) = true) :
    clean_json_string ('[' :: (body ++ [']'])) =
      collapseSpaces (replaceNlSp ('[' :: (body ++ [']']))) := by
  have hpre := clean_pre_good hgood
  have hbsl := bsl_not_mem_good hgood
  have hhead : ∀ c, ('[' :: (body ++ [']'])).head? = some c → isPySpace c = false := by
    intro c hc
    have hc2 : '[' = c := by simpa using hc
    rw [← hc2]
    decide
  have hlast : ∀ c, ('[' :: (body ++ [']'])).getLast? = some c → isPySpace c = false := by
    intro c hc
    have hshape : '[' :: (body ++ [']']) = ('[' :: body) ++ [']'] := by simp
    rw [hshape, getLast?_append_right (by simp)] at hc
    have hc2 : ']' = c := by simpa using hc
    rw [← hc2]
    decide
  have hrej := rejoin_top hbsl hnlin hadj hhead hlast
  simp only [clean_json_string, clean_core, hpre, hrej]
  rw [intercalate_single]
  rfl

/-- A markdown-fenced model response: the JSON text wrapped in
a ```json opening fence and a closing fence, each on its own line. -/
def fenceWrap (s : Str) : Str :=
  "```json".toList ++ '\n' :: (s ++ '\n' :: "```".toList)

theorem subFenceJson_short : ∀ {l : Str}, l.length < 7 → subFenceJson l = l := by
  intro l
  induction l with
  | nil => intro _; simp [subFenceJson]
  | cons c t ih =>
    intro hlen
    have hpre : "```json".toList.isPrefixOf (c :: t) = false := by
      cases hx : "```json".toList.isPrefixOf (c :: t)
      · rfl
      · exfalso
        have hp := List.isPrefixOf_iff_prefix.1 hx
        have hle := hp.length_le
        have h7 : ("```json".toList).length = 7 := by decide
        rw [h7] at hle
        simp only [List.length_cons] at hle hlen
        omega
    simp only [subFenceJson, hpre, Bool.false_eq_true, if_false]
    rw [ih (by simp only [List.length_cons] at hlen; omega)]

theorem brackCPair_good {body : Str}
    (hgood : ∀ c ∈ body, goodBodyChar c = true)
    (hheadc : ∀ c, body.head? = some c → c ≠ 'c') :
    noAdjPair brackCPair (fenceWrap ('[' :: (body ++ [']']))) = true := by
  have hS_adj : noAdjPair brackCPair ('[' :: (body ++ [']'])) = true := by
    cases body with
    | nil => decide
    | cons b0 bt =>
      have hb0 : b0 ≠ 'c' := hheadc b0 (by simp)
      have h1 : noAdjPair brackCPair (b0 :: (bt ++ [']'])) = true := by
        apply noAdjPair_of_all_fst
        intro a ha b
        have hane : a ≠ '[' := by
          rcases List.mem_cons.1 ha with h | h
          · subst h
            exact goodBodyChar_ne_lbrack (hgood _ (by simp))
          · rcases List.mem_append.1 h with h2 | h2
            · exact goodBodyChar_ne_lbrack (hgood _ (List.mem_cons_of_mem _ h2))
            · have ha2 : a = ']' := by simpa using h2
              subst ha2
              decide
        simp [brackCPair, hane]
      have hpair : brackCPair '[' b0 = false := by simp [brackCPair, hb0]
      show noAdjPair brackCPair ('[' :: b0 :: (bt ++ [']'])) = true
      simp only [noAdjPair, Bool.and_eq_true]
      exact ⟨by simp [hpair], h1⟩
  have h2 : noAdjPair brackCPair (('[' :: (body ++ [']'])) ++ '\n' :: "```".toList) =
      true := by
    refine noAdjPair_append hS_adj (by decide) ?_
    intro a b _ hb
    have hb2 : '\n' = b := by simpa using hb
    rw [← hb2]
    simp [brackCPair]
  have hy : noAdjPair brackCPair ('\n' :: (('[' :: (body ++ [']'])) ++ '\n' ::
      "```".toList)) = true := by
    have hshape : ('[' :: (body ++ [']'])) ++ '\n' :: "```".toList =
        '[' :: ((body ++ [']']) ++ '\n' :: "```".toList) := by simp
    rw [hshape]
    simp only [noAdjPair, Bool.and_eq_true]
    refine ⟨by simp [brackCPair], ?_⟩
    rw [← hshape]
    exact h2
  have hF1 : noAdjPair brackCPair "```json".toList = true := by decide
  have hbound : ∀ a b, ("```json".toList).getLast? = some a →
      ('\n' :: (('[' :: (body ++ [']'])) ++ '\n' :: "```".toList)).head? = some b →
      brackCPair a b = false := by
    intro a b ha _
    have hv : ("```json".toList).getLast? = some 'n' := by decide
    rw [hv] at ha
    have ha2 : 'n' = a := Option.some.inj ha
    rw [← ha2]
    simp [brackCPair]
  exact noAdjPair_append hF1 hy hbound

theorem btk_not_mem_good {body : Str}
    (hgood : ∀ c ∈ body, goodBodyChar c = true) :
    btk ∉ ('[' :: (body ++ [']'])) ++ ['\n'] := by
  intro hm
  rcases List.mem_append.1 hm with h | h
  · rcases List.mem_cons.1 h with h1 | h1
    · exact absurd h1.symm (by decide)
    · rcases List.mem_append.1 h1 with h2 | h2
      · exact goodBodyChar_ne_btk (hgood _ h2) rfl
      · have : btk = ']' := by simpa using h2
        exact absurd this (by decide)
  · have : btk = '\n' := by simpa using h
    exact absurd this (by decide)

theorem gemini_sanitize_fenced {body : Str}
    (hgood : ∀ c ∈ body, goodBodyChar c = true)
    (hnlin : NlInsideB false ('[' :: (body ++ [']'])) = true)
    (hadj : noAdjPair nlSpacePair ('[' :: (body ++ [']'])) = true)
    (hheadc : ∀ c, body.head? = some c → c ≠ 'c') :
    gemini_sanitize (fenceWrap ('[' :: (body ++ [']']))) =
      collapseSpaces (replaceNlSp ('[' :: (body ++ [']']))) := by
  have hF1 : "```json".toList = btk :: "``json".toList := by decide
  have hstrip : pyStrip (fenceWrap ('[' :: (body ++ [']']))) =
      fenceWrap ('[' :: (body ++ [']'])) := by
    have hl : pyLstrip (fenceWrap ('[' :: (body ++ [']']))) =
        fenceWrap ('[' :: (body ++ [']'])) := by
      refine pyLstrip_id ?_
      intro c hc
      simp only [fenceWrap, hF1, List.cons_append, List.head?_cons,
        Option.some.injEq] at hc
      rw [← hc]
      decide
    have hshape : fenceWrap ('[' :: (body ++ [']'])) =
        ("```json".toList ++ '\n' :: (('[' :: (body ++ [']'])) ++ ['\n'])) ++
          "```".toList := by
      simp [fenceWrap]
    have hr : pyRstrip (fenceWrap ('[' :: (body ++ [']']))) =
        fenceWrap ('[' :: (body ++ [']'])) := by
      refine pyRstrip_id (by simp [fenceWrap, hF1]) ?_
      intro c hc
      rw [hshape, getLast?_append_right (by decide)] at hc
      have hv : ("```".toList).getLast? = some btk := by decide
      rw [hv] at hc
      have hc2 : btk = c := Option.some.inj hc
      rw [← hc2]
      decide
    rw [pyStrip, hl, hr]
  have hcite := brackCPair_good hgood hheadc
  have hcite1 : removeCiteNested (fenceWrap ('[' :: (body ++ [']']))) =
      fenceWrap ('[' :: (body ++ [']'])) := removeCiteNested_id hcite
  have hcite2 : removeCiteSimple (fenceWrap ('[' :: (body ++ [']']))) =
      fenceWrap ('[' :: (body ++ [']'])) := removeCiteSimple_id hcite
  have hdw : (('\n' :: (('[' :: (body ++ [']'])) ++ '\n' ::
      "```".toList))).dropWhile isPySpace =
      ('[' :: (body ++ [']'])) ++ '\n' :: "```".toList := by
    rw [List.dropWhile_cons, if_pos (by decide)]
    have hshape : ('[' :: (body ++ [']'])) ++ '\n' :: "```".toList =
        '[' :: ((body ++ [']']) ++ '\n' :: "```".toList) := by simp
    rw [hshape, List.dropWhile_cons, if_neg (by decide)]
  have hbtk := btk_not_mem_good hgood
  have hfj : subFenceJson (fenceWrap ('[' :: (body ++ [']']))) =
      ('[' :: (body ++ [']'])) ++ '\n' :: "```".toList := by
    rw [fenceWrap, subFenceJson_fence, hdw]
    have hshape : ('[' :: (body ++ [']'])) ++ '\n' :: "```".toList =
        (('[' :: (body ++ [']'])) ++ ['\n']) ++ "```".toList := by simp
    rw [hshape, subFenceJson_append_no_tick "```".toList hbtk]
    rw [subFenceJson_short (by decide)]
  have hfa : subFenceAny (('[' :: (body ++ [']'])) ++ '\n' :: "```".toList) =
      ('[' :: (body ++ [']'])) ++ ['\n'] := by
    have hshape : ('[' :: (body ++ [']'])) ++ '\n' :: "```".toList =
        (('[' :: (body ++ [']'])) ++ ['\n']) ++ "```".toList := by simp
    rw [hshape, subFenceAny_append_no_tick "```".toList hbtk]
    have h2 : subFenceAny "```".toList = [] := by
      have := subFenceAny_fence []
      simpa [subFenceAny] using this
    rw [h2, List.append_nil]
  have htrim : trimToFirstBracket (('[' :: (body ++ [']'])) ++ ['\n']) =
      ('[' :: (body ++ [']'])) ++ ['\n'] := by
    have hshape : ('[' :: (body ++ [']'])) ++ ['\n'] =
        '[' :: ((body ++ [']']) ++ ['\n']) := by simp
    rw [hshape, trimToFirstBracket_lbrack]
  have htrunc : truncAfterLastBracket (('[' :: (body ++ [']'])) ++ ['\n']) =
      '[' :: (body ++ [']']) := by
    have hshape : ('[' :: (body ++ [']'])) ++ ['\n'] =
        (('[' :: body) ++ [']']) ++ ['\n'] := by simp
    rw [hshape, truncAfterLastBracket_tail (by
      intro c hc
      have hcn : c = '\n' := by simpa using hc
      subst hcn
      exact ⟨by decide, by decide⟩)]
    rw [List.cons_append]
  have hcjs := clean_json_string_span hgood hnlin hadj
  have hr7head : collapseSpaces (replaceNlSp ('[' :: (body ++ [']']))) =
      '[' :: collapseGo false (replaceNlSp (body ++ [']'])) := by
    have h1 : replaceNlSp ('[' :: (body ++ [']'])) =
        '[' :: replaceNlSp (body ++ [']']) := by
      simp [replaceNlSp]
    rw [h1, collapseSpaces]
    have h2 : collapseGo false ('[' :: replaceNlSp (body ++ [']'])) =
        '[' :: collapseGo false (replaceNlSp (body ++ [']'])) := by
      simp [collapseGo]
    exact h2
  have hsb : startsWithBracket (collapseSpaces (replaceNlSp ('[' :: (body ++ [']'])))) =
      true := by
    rw [hr7head]
    simp [startsWithBracket]
  simp only [gemini_sanitize]
  rw [hstrip, hcite1, hcite2, hfj, hfa, htrim, htrunc, hcjs, if_pos hsb]

/-!
The round-trip claim compares the sanitizer's output against a strict
JSON parse of the equivalent single-line JSON.  The strict parse
(`json.loads` in the source) is modelled spec-side by a recursive-descent
parser specialised to the grammar of the claim: an array of flat objects
whose keys and values are strings.  Rendering is the inverse map.
-/

/-- One record field rendered as `"key":"value"`. -/
def renderField (kv : Str × Str) : Str :=
  dq :: (kv.1 ++ dq :: ':' :: dq :: (kv.2 ++ [dq]))

/-- One record rendered as a flat JSON object. -/
def renderObj (o : List (Str × Str)) : Str :=
  obr :: (List.intercalate [','] (o.map renderField) ++ [cbr])

/-- The comma-joined object list between the array brackets. -/
def renderArrBody (a : List (List (Str × Str))) : Str :=
  List.intercalate [','] (a.map renderObj)

/-- A record array rendered as a JSON array text. -/
def renderArr (a : List (List (Str × Str))) : Str :=
  '[' :: (renderArrBody a ++ [']'])

/-- The logical records after the newline-to-space normalization that
the sanitizer's line rejoin performs inside string values. -/
def mapNl (a : List (List (Str × Str))) : List (List (Str × Str)) :=
  a.map (fun o => o.map (fun kv => (kv.1, replaceNlSp kv.2)))

/-- Strict-parse model: the body of a JSON string up to its closing
quote (the grammar uses no escapes), returning content and remainder. -/
def parseQuoted : Str → Option (Str × Str)
  | [] => none
  | c :: t =>
    if c = dq then some ([], t)
    else
      match parseQuoted t with
      | some (w, r) => some (c :: w, r)
      | none => none

/-- Strict-parse model: one `"key":"value"` field. -/
def parseField : Str → Option ((Str × Str) × Str)
  | [] => none
  | c :: t =>
    if c = dq then
      match parseQuoted t with
      | none => none
      | some (k, r1) =>
        match r1 with
        | ':' :: d :: r3 =>
          if d = dq then
            match parseQuoted r3 with
            | none => none
            | some (v, r4) => some ((k, v), r4)
          else none
        | _ => none
    else none

/-- Strict-parse model: a nonempty comma-separated field list closed by
the object's closing brace. -/
def parseFields : Nat → Str → Option (List (Str × Str) × Str)
  | 0, _ => none
  | fuel + 1, s =>
    match parseField s with
    | some (kv, c :: r2) =>
      if c = ',' then
        match parseFields fuel r2 with
        | some (kvs, r3) => some (kv :: kvs, r3)
        | none => none
      else if c = cbr then some ([kv], r2)
      else none
    | _ => none

/-- Strict-parse model: one flat object. -/
def parseObj (fuel : Nat) : Str → Option (List (Str × Str) × Str)
  | [] => none
  | c :: t => if c = obr then parseFields fuel t else none

/-- Strict-parse model: a nonempty comma-separated object list closed by
the array's closing bracket. -/
def parseObjs : Nat → Str → Option (List (List (Str × Str)) × Str)
  | 0, _ => none
  | fuel + 1, s =>
    match parseObj fuel s with
    | some (o, c :: r2) =>
      if c = ',' then
        match parseObjs fuel r2 with
        | some (os, r3) => some (o :: os, r3)
        | none => none
      else if c = ']' then some ([o], r2)
      else none
    | _ => none

/-- Strict-parse model of `json.loads` on the claim's grammar: a JSON
array of flat string-valued objects, with nothing after the closing
bracket. -/
def parseArr (s : Str) : Option (List (List (Str × Str))) :=
  if s = ['[', ']'] then some []
  else
    match s with
    | '[' :: rest =>
      match parseObjs rest.length rest with
      | some (os, []) => some os
      | _ => none
    | _ => none

theorem parseQuoted_render {w : Str} (hw : dq ∉ w) (rest : Str) :
    parseQuoted (w ++ dq :: rest) = some (w, rest) := by
  induction w with
  | nil => simp [parseQuoted]
  | cons c t ih =>
    have hc : c ≠ dq := fun hx => hw (hx ▸ List.mem_cons_self c t)
    have ht := ih (fun hx => hw (List.mem_cons_of_mem c hx))
    simp [parseQuoted, hc, ht]

theorem parseField_render {k v : Str} (hk : dq ∉ k) (hv : dq ∉ v) (rest : Str) :
    parseField (renderField (k, v) ++ rest) = some ((k, v), rest) := by
  have hshape : renderField (k, v) ++ rest =
      dq :: (k ++ dq :: (':' :: dq :: (v ++ dq :: rest))) := by
    simp [renderField]
  rw [hshape]
  have h1 := parseQuoted_render hk (':' :: dq :: (v ++ dq :: rest))
  have h2 := parseQuoted_render hv rest
  simp [parseField, h1, h2]

theorem intercalate_cons2 (sep x y : Str) (l : List Str) :
    List.intercalate sep (x :: y :: l) = x ++ sep ++ List.intercalate sep (y :: l) := by
  simp [List.intercalate]

theorem parseFields_render : ∀ (o : List (Str × Str)) (fuel : Nat) (rest : Str),
    o ≠ [] → (∀ kv ∈ o, dq ∉ kv.1 ∧ dq ∉ kv.2) → o.length ≤ fuel →
    parseFields fuel (List.intercalate [','] (o.map renderField) ++ cbr :: rest) =
      some (o, rest) := by
  intro o
  induction o with
  | nil => intro fuel rest h _ _; exact absurd rfl h
  | cons kv o2 ih =>
    intro fuel rest _ hq hlen
    obtain ⟨k, v⟩ := kv
    have hk : dq ∉ k := (hq (k, v) (by simp)).1
    have hv : dq ∉ v := (hq (k, v) (by simp)).2
    cases fuel with
    | zero => simp at hlen
    | succ f =>
      cases o2 with
      | nil =>
        rw [List.map_cons, List.map_nil, intercalate_single]
        have h2 := parseField_render hk hv (cbr :: rest)
        have hcm : cbr ≠ ',' := by decide
        simp [parseFields, h2, hcm]
      | cons kv2 o3 =>
        have hshape : List.intercalate [','] (((k, v) :: kv2 :: o3).map renderField) ++
            cbr :: rest = renderField (k, v) ++ ',' ::
              (List.intercalate [','] ((kv2 :: o3).map renderField) ++ cbr :: rest) := by
          rw [List.map_cons, List.map_cons, intercalate_cons2]
          simp
        rw [hshape]
        have h2 := parseField_render hk hv
          (',' :: (List.intercalate [','] ((kv2 :: o3).map renderField) ++ cbr :: rest))
        have hih := ih f rest (by simp)
          (fun x hx => hq x (List.mem_cons_of_mem _ hx))
          (by simp only [List.length_cons] at hlen ⊢; omega)
        simp only [parseFields, h2]
        rw [hih]
        simp

theorem parseObj_render {o : List (Str × Str)} {fuel : Nat} (rest : Str)
    (hne : o ≠ []) (hq : ∀ kv ∈ o, dq ∉ kv.1 ∧ dq ∉ kv.2) (hlen : o.length ≤ fuel) :
    parseObj fuel (renderObj o ++ rest) = some (o, rest) := by
  have hshape : renderObj o ++ rest =
      obr :: (List.intercalate [','] (o.map renderField) ++ cbr :: rest) := by
    simp [renderObj]
  rw [hshape]
  have h1 := parseFields_render o fuel rest hne hq hlen
  simp [parseObj, h1]

/-- Fuel bound for the strict-parse model: one unit per object plus one
per field. -/
def arrCost (a : List (List (Str × Str))) : Nat :=
  a.length + (a.map List.length).sum

theorem parseObjs_render : ∀ (a : List (List (Str × Str))) (fuel : Nat) (rest : Str),
    a ≠ [] → (∀ o ∈ a, o ≠ [] ∧ ∀ kv ∈ o, dq ∉ kv.1 ∧ dq ∉ kv.2) → arrCost a ≤ fuel →
    parseObjs fuel (renderArrBody a ++ ']' :: rest) = some (a, rest) := by
  intro a
  induction a with
  | nil => intro fuel rest h _ _; exact absurd rfl h
  | cons o a2 ih =>
    intro fuel rest _ hg hlen
    have ho := hg o (by simp)
    cases fuel with
    | zero =>
      exfalso
      simp only [arrCost, List.length_cons] at hlen
      omega
    | succ f =>
      have hof : o.length ≤ f := by
        simp only [arrCost, List.length_cons, List.map_cons, List.sum_cons] at hlen
        omega
      cases a2 with
      | nil =>
        rw [renderArrBody, List.map_cons, List.map_nil, intercalate_single]
        have h1 := parseObj_render (']' :: rest) ho.1 ho.2 hof
        have hcm : (']' : Char) ≠ ',' := by decide
        simp [parseObjs, h1, hcm]
      | cons o2 a3 =>
        have hshape : renderArrBody (o :: o2 :: a3) ++ ']' :: rest =
            renderObj o ++ ',' :: (renderArrBody (o2 :: a3) ++ ']' :: rest) := by
          rw [renderArrBody, List.map_cons, List.map_cons, intercalate_cons2]
          simp [renderArrBody]
        rw [hshape]
        have h1 := parseObj_render
          (',' :: (renderArrBody (o2 :: a3) ++ ']' :: rest)) ho.1 ho.2 hof
        have hih := ih f rest (by simp)
          (fun x hx => hg x (List.mem_cons_of_mem _ hx))
          (by simp only [arrCost, List.length_cons, List.map_cons, List.sum_cons]
                at hlen ⊢
              omega)
        simp only [parseObjs, h1]
        rw [hih]
        simp

theorem renderField_pos (kv : Str × Str) : 1 ≤ (renderField kv).length := by
  simp [renderField]

theorem intercalate_comma_len : ∀ (l : List Str), (∀ x ∈ l, 1 ≤ x.length) →
    l.length ≤ (List.intercalate [','] l).length := by
  intro l
  induction l with
  | nil => intro _; simp [List.intercalate]
  | cons x t ih =>
    intro h
    cases t with
    | nil =>
      have := h x (by simp)
      simpa [intercalate_single] using this
    | cons y t2 =>
      rw [intercalate_cons2]
      have hx := h x (by simp)
      have ht := ih (fun z hz => h z (List.mem_cons_of_mem x hz))
      simp only [List.length_append, List.length_cons] at ht ⊢
      omega

theorem renderObj_len (o : List (Str × Str)) : o.length + 2 ≤ (renderObj o).length := by
  have h1 : (o.map renderField).length ≤
      (List.intercalate [','] (o.map renderField)).length := by
    refine intercalate_comma_len _ ?_
    intro x hx
    rcases List.mem_map.1 hx with ⟨kv, _, hkv⟩
    rw [← hkv]
    exact renderField_pos kv
  simp only [renderObj, List.length_cons, List.length_append,
    List.length_map] at h1 ⊢
  omega

theorem arrCost_le : ∀ (a : List (List (Str × Str))),
    arrCost a ≤ (renderArrBody a).length + 1 := by
  intro a
  induction a with
  | nil => simp [arrCost]
  | cons o a2 ih =>
    cases a2 with
    | nil =>
      have h1 := renderObj_len o
      simp only [arrCost, renderArrBody, List.map_cons, List.map_nil,
        intercalate_single, List.length_cons, List.length_nil, List.sum_cons,
        List.sum_nil]
      omega
    | cons o2 a3 =>
      have h1 := renderObj_len o
      have hshape : renderArrBody (o :: o2 :: a3) =
          renderObj o ++ [','] ++ renderArrBody (o2 :: a3) := by
        rw [renderArrBody, List.map_cons, List.map_cons, intercalate_cons2]
        rfl
      rw [hshape]
      simp only [arrCost, List.length_cons, List.map_cons, List.sum_cons,
        List.length_append] at ih ⊢
      omega

theorem renderArrBody_cons_head (o : List (Str × Str)) (a2 : List (List (Str × Str))) :
    ∃ Y, renderArrBody (o :: a2) = obr :: Y := by
  cases a2 with
  | nil =>
    exact ⟨List.intercalate [','] (o.map renderField) ++ [cbr], by
      rw [renderArrBody, List.map_cons, List.map_nil, intercalate_single]; rfl⟩
  | cons o2 a3 =>
    refine ⟨(List.intercalate [','] (o.map renderField) ++ [cbr]) ++ [','] ++
      renderArrBody (o2 :: a3), ?_⟩
    rw [renderArrBody, List.map_cons, List.map_cons, intercalate_cons2]
    rfl

theorem parseArr_render {a : List (List (Str × Str))}
    (hg : ∀ o ∈ a, o ≠ [] ∧ ∀ kv ∈ o, dq ∉ kv.1 ∧ dq ∉ kv.2) :
    parseArr (renderArr a) = some a := by
  cases a with
  | nil =>
    have h : renderArr [] = ['[', ']'] := by
      rw [renderArr, renderArrBody, List.map_nil]
      rfl
    rw [h]
    simp [parseArr]
  | cons o a2 =>
    obtain ⟨Y, hY⟩ := renderArrBody_cons_head o a2
    have hne : renderArr (o :: a2) ≠ ['[', ']'] := by
      intro h
      rw [renderArr, hY, List.cons_append] at h
      injection h with _ h2
      injection h2 with h3 _
      exact absurd h3 (by decide)
    have hcost : arrCost (o :: a2) ≤ (renderArrBody (o :: a2) ++ [']']).length := by
      have := arrCost_le (o :: a2)
      simp only [List.length_append, List.length_cons, List.length_nil]
      omega
    have hobjs := parseObjs_render (o :: a2) (renderArrBody (o :: a2) ++ [']']).length
      [] (by simp) hg hcost
    rw [show renderArr (o :: a2) = '[' :: (renderArrBody (o :: a2) ++ [']']) from rfl]
    simp only [parseArr, if_neg (by rw [renderArr] at hne; exact hne)]
    rw [hobjs]

/-- Characters allowed inside a grammar value: words, spaces and
literal newlines. -/
def goodValChar (c : Char) : Bool := wordChar c || c = ' ' || c = '\n'

/-- Grammar key: word characters only. -/
def goodKey (k : Str) : Bool := k.all wordChar

/-- Weak grammar value (the claim's input family): word/space/newline
characters with no whitespace adjacent to a newline. -/
def goodValW (v : Str) : Bool := v.all goodValChar && noAdjPair nlSpacePair v

/-- Strict grammar value: additionally no two adjacent whitespace
characters anywhere. -/
def goodVal (v : Str) : Bool := goodValW v && noAdjPair pySpacePair v

/-- Weak grammar object: nonempty, fields with grammar keys and weak
values. -/
def goodObjW (o : List (Str × Str)) : Bool :=
  !o.isEmpty && o.all (fun kv => goodKey kv.1 && goodValW kv.2)

/-- Strict grammar object. -/
def goodObj (o : List (Str × Str)) : Bool :=
  !o.isEmpty && o.all (fun kv => goodKey kv.1 && goodVal kv.2)

/-- Weak grammar array: the claim's fenced-input family. -/
def goodArrW (a : List (List (Str × Str))) : Bool := a.all goodObjW

/-- Strict grammar array. -/
def goodArr (a : List (List (Str × Str))) : Bool := a.all goodObj

theorem wordChar_ne_dq {c : Char} (h : wordChar c = true) : c ≠ dq := by
  intro hx
  rw [hx] at h
  exact absurd h (by decide)

theorem wordChar_ne_nl {c : Char} (h : wordChar c = true) : c ≠ '\n' := by
  intro hx
  rw [hx] at h
  exact absurd h (by decide)

theorem goodValChar_ne_dq {c : Char} (h : goodValChar c = true) : c ≠ dq := by
  simp only [goodValChar, Bool.or_eq_true, decide_eq_true_eq] at h
  rcases h with (h | h) | h
  · exact wordChar_ne_dq h
  · rw [h]; decide
  · rw [h]; decide

theorem goodKey_not_dq {k : Str} (h : goodKey k = true) : dq ∉ k := by
  intro hm
  have := List.all_eq_true.1 h dq hm
  exact absurd this (by decide)

theorem goodKey_not_nl {k : Str} (h : goodKey k = true) : '\n' ∉ k := by
  intro hm
  have := List.all_eq_true.1 h '\n' hm
  exact absurd this (by decide)

theorem goodKey_nonspace {k : Str} (h : goodKey k = true) :
    ∀ c ∈ k, isPySpace c = false :=
  fun c hc => wordChar_not_pyspace (List.all_eq_true.1 h c hc)

theorem goodValW_not_dq {v : Str} (h : goodValW v = true) : dq ∉ v := by
  intro hm
  simp only [goodValW, Bool.and_eq_true] at h
  exact goodValChar_ne_dq (List.all_eq_true.1 h.1 dq hm) rfl

theorem countDq_append (x y : Str) : countDq (x ++ y) = countDq x + countDq y := by
  induction x with
  | nil => simp [countDq]
  | cons c t ih =>
    have h1 : (c :: t) ++ y = c :: (t ++ y) := rfl
    rw [h1]
    rw [show countDq (c :: (t ++ y)) = (if c = dq then 1 else 0) + countDq (t ++ y)
      from rfl]
    rw [show countDq (c :: t) = (if c = dq then 1 else 0) + countDq t from rfl]
    rw [ih]
    omega

theorem countDq_no_dq {l : Str} (h : dq ∉ l) : countDq l = 0 := by
  induction l with
  | nil => rfl
  | cons c t ih =>
    have hc : c ≠ dq := fun hx => h (hx ▸ List.mem_cons_self c t)
    simp only [countDq, if_neg hc]
    rw [ih (fun hx => h (List.mem_cons_of_mem c hx))]

theorem scanQ_no_dq {l : Str} (h : dq ∉ l) (b : Bool) : scanQ b l = b := by
  rw [scanQ_parity, countDq_no_dq h]
  simp

theorem NlInsideB_no_nl {l : Str} (h : '\n' ∉ l) : ∀ b, NlInsideB b l = true := by
  induction l with
  | nil => intro b; rfl
  | cons c t ih =>
    intro b
    have hc : c ≠ '\n' := fun hx => h (hx ▸ List.mem_cons_self c t)
    have ht := ih (fun hx => h (List.mem_cons_of_mem c hx))
    simp [NlInsideB, hc, ht]

theorem NlInsideB_no_dq_true {l : Str} (h : dq ∉ l) : NlInsideB true l = true := by
  induction l with
  | nil => rfl
  | cons c t ih =>
    have hc : c ≠ dq := fun hx => h (hx ▸ List.mem_cons_self c t)
    have ht := ih (fun hx => h (List.mem_cons_of_mem c hx))
    simp [NlInsideB, hc, ht]

theorem countDq_field {k v : Str} (hk : dq ∉ k) (hv : dq ∉ v) :
    countDq (renderField (k, v)) = 4 := by
  have h1 : renderField (k, v) = dq :: (k ++ dq :: ':' :: dq :: (v ++ [dq])) := rfl
  rw [h1]
  simp only [countDq, countDq_append, countDq_no_dq hk, countDq_no_dq hv]
  rw [show ((if (':' : Char) = dq then 1 else 0) : Nat) = 0 from by decide]
  norm_num

theorem scanQ_field {k v : Str} (hk : dq ∉ k) (hv : dq ∉ v) (b : Bool) :
    scanQ b (renderField (k, v)) = b := by
  rw [scanQ_parity, countDq_field hk hv]
  simp

theorem NlInsideB_cons_eval {c : Char} {t : Str} (b : Bool) (hc : c ≠ '\n') :
    NlInsideB b (c :: t) = NlInsideB (if c = dq then !b else b) t := by
  rw [show NlInsideB b (c :: t) = ((if c = '\n' then b else true) &&
    NlInsideB (if c = dq then !b else b) t) from rfl]
  rw [if_neg hc]
  simp

theorem NlInsideB_field {k v : Str} (hk_dq : dq ∉ k) (hk_nl : '\n' ∉ k)
    (hv : dq ∉ v) : NlInsideB false (renderField (k, v)) = true := by
  have h1 : renderField (k, v) = dq :: (k ++ dq :: ':' :: dq :: (v ++ [dq])) := rfl
  rw [h1, NlInsideB_cons_eval false (by decide),
    show (if dq = dq then !false else false) = true from by decide]
  rw [NlInsideB_append, NlInsideB_no_nl hk_nl true, scanQ_no_dq hk_dq true,
    Bool.true_and]
  rw [NlInsideB_cons_eval true (by decide),
    show (if dq = dq then !true else true) = false from by decide]
  rw [NlInsideB_cons_eval false (by decide),
    show (if (':' : Char) = dq then !false else false) = false from by decide]
  rw [NlInsideB_cons_eval false (by decide),
    show (if dq = dq then !false else false) = true from by decide]
  rw [NlInsideB_append, NlInsideB_no_dq_true hv, scanQ_no_dq hv, Bool.true_and]
  exact NlInsideB_no_nl (by decide) true

theorem NlInsideB_fieldList : ∀ (o : List (Str × Str)),
    (∀ kv ∈ o, dq ∉ kv.1 ∧ '\n' ∉ kv.1 ∧ dq ∉ kv.2) →
    NlInsideB false (List.intercalate [','] (o.map renderField)) = true ∧
    scanQ false (List.intercalate [','] (o.map renderField)) = false := by
  intro o
  induction o with
  | nil =>
    intro _
    constructor
    · rw [List.map_nil]
      rfl
    · rw [List.map_nil]
      rfl
  | cons kv o2 ih =>
    intro h
    obtain ⟨k, v⟩ := kv
    have hkv := h (k, v) (by simp)
    have hfield := NlInsideB_field hkv.1 hkv.2.1 hkv.2.2
    have hscan := scanQ_field hkv.1 hkv.2.2 false
    cases o2 with
    | nil =>
      rw [List.map_cons, List.map_nil, intercalate_single]
      exact ⟨hfield, hscan⟩
    | cons kv2 o3 =>
      have hshape : List.intercalate [','] (((k, v) :: kv2 :: o3).map renderField) =
          renderField (k, v) ++
            (',' :: List.intercalate [','] ((kv2 :: o3).map renderField)) := by
        rw [List.map_cons, List.map_cons, intercalate_cons2]
        simp
      have ihh := ih (fun x hx => h x (List.mem_cons_of_mem _ hx))
      constructor
      · rw [hshape, NlInsideB_append, hfield, hscan, Bool.true_and]
        rw [NlInsideB_cons_eval false (by decide),
          show (if (',' : Char) = dq then !false else false) = false from by decide]
        exact ihh.1
      · rw [hshape, scanQ_append, hscan]
        rw [show scanQ false (',' :: List.intercalate [',']
          ((kv2 :: o3).map renderField)) = scanQ false (List.intercalate [',']
            ((kv2 :: o3).map renderField)) from by
          rw [show (',' :: List.intercalate [','] ((kv2 :: o3).map renderField)) =
            [','] ++ List.intercalate [','] ((kv2 :: o3).map renderField) from rfl]
          rw [scanQ_append, scanQ_no_dq (by decide) false]]
        exact ihh.2

theorem NlInsideB_obj {o : List (Str × Str)}
    (h : ∀ kv ∈ o, dq ∉ kv.1 ∧ '\n' ∉ kv.1 ∧ dq ∉ kv.2) :
    NlInsideB false (renderObj o) = true ∧ scanQ false (renderObj o) = false := by
  have hfl := NlInsideB_fieldList o h
  have h1 : renderObj o = obr ::
      (List.intercalate [','] (o.map renderField) ++ [cbr]) := rfl
  constructor
  · rw [h1, NlInsideB_cons_eval false (by decide),
      show (if obr = dq then !false else false) = false from by decide]
    rw [NlInsideB_append, hfl.1, hfl.2, Bool.true_and]
    exact NlInsideB_no_nl (by decide) false
  · rw [h1, show scanQ false (obr ::
      (List.intercalate [','] (o.map renderField) ++ [cbr])) =
        scanQ false (List.intercalate [','] (o.map renderField) ++ [cbr]) from by
      rw [show (obr :: (List.intercalate [','] (o.map renderField) ++ [cbr])) =
        [obr] ++ (List.intercalate [','] (o.map renderField) ++ [cbr]) from rfl]
      rw [scanQ_append, scanQ_no_dq (by decide) false]]
    rw [scanQ_append, hfl.2, scanQ_no_dq (by decide) false]

theorem NlInsideB_arrBody : ∀ (a : List (List (Str × Str))),
    (∀ o ∈ a, ∀ kv ∈ o, dq ∉ kv.1 ∧ '\n' ∉ kv.1 ∧ dq ∉ kv.2) →
    NlInsideB false (renderArrBody a) = true ∧ scanQ false (renderArrBody a) = false := by
  intro a
  induction a with
  | nil =>
    intro _
    constructor
    · rw [renderArrBody, List.map_nil]
      rfl
    · rw [renderArrBody, List.map_nil]
      rfl
  | cons o a2 ih =>
    intro h
    have hobj := NlInsideB_obj (h o (by simp))
    cases a2 with
    | nil =>
      rw [renderArrBody, List.map_cons, List.map_nil, intercalate_single]
      exact hobj
    | cons o2 a3 =>
      have hshape : renderArrBody (o :: o2 :: a3) =
          renderObj o ++ (',' :: renderArrBody (o2 :: a3)) := by
        rw [renderArrBody, List.map_cons, List.map_cons, intercalate_cons2]
        simp [renderArrBody]
      have ihh := ih (fun x hx => h x (List.mem_cons_of_mem _ hx))
      constructor
      · rw [hshape, NlInsideB_append, hobj.1, hobj.2, Bool.true_and]
        rw [NlInsideB_cons_eval false (by decide),
          show (if (',' : Char) = dq then !false else false) = false from by decide]
        exact ihh.1
      · rw [hshape, scanQ_append, hobj.2]
        rw [show scanQ false (',' :: renderArrBody (o2 :: a3)) =
          scanQ false (renderArrBody (o2 :: a3)) from by
          rw [show (',' :: renderArrBody (o2 :: a3)) =
            [','] ++ renderArrBody (o2 :: a3) from rfl]
          rw [scanQ_append, scanQ_no_dq (by decide) false]]
        exact ihh.2

theorem NlInsideB_renderArr {a : List (List (Str × Str))}
    (h : ∀ o ∈ a, ∀ kv ∈ o, dq ∉ kv.1 ∧ '\n' ∉ kv.1 ∧ dq ∉ kv.2) :
    NlInsideB false ('[' :: (renderArrBody a ++ [']'])) = true := by
  have hb := NlInsideB_arrBody a h
  rw [NlInsideB_cons_eval false (by decide),
    show (if ('[' : Char) = dq then !false else false) = false from by decide]
  rw [NlInsideB_append, hb.1, hb.2, Bool.true_and]
  exact NlInsideB_no_nl (by decide) false

theorem noAdjPair_cons_nonspace {p : Char → Char → Bool}
    (hpL : ∀ x y, isPySpace x = false → p x y = false) {c : Char} {l : Str}
    (hc : isPySpace c = false) (hl : noAdjPair p l = true) :
    noAdjPair p (c :: l) = true := by
  cases l with
  | nil => rfl
  | cons b t =>
    simp only [noAdjPair, Bool.and_eq_true]
    exact ⟨by simp [hpL c b hc], hl⟩

theorem noAdjPair_all_nonspace {p : Char → Char → Bool}
    (hpL : ∀ x y, isPySpace x = false → p x y = false) {l : Str}
    (h : ∀ c ∈ l, isPySpace c = false) : noAdjPair p l = true :=
  noAdjPair_of_all_fst (fun a ha b => hpL a b (h a ha))

theorem noAdjPair_field {p : Char → Char → Bool}
    (hpL : ∀ x y, isPySpace x = false → p x y = false)
    (hpR : ∀ x y, isPySpace y = false → p x y = false) {k v : Str}
    (hk : ∀ c ∈ k, isPySpace c = false) (hv : noAdjPair p v = true) :
    noAdjPair p (renderField (k, v)) = true := by
  have hA : noAdjPair p (v ++ [dq]) = true := by
    refine noAdjPair_append hv rfl ?_
    intro a b _ hb
    have hb2 : dq = b := by simpa using hb
    exact hpR a b (by rw [← hb2]; decide)
  have hB : noAdjPair p (dq :: ':' :: dq :: (v ++ [dq])) = true := by
    refine noAdjPair_cons_nonspace hpL (by decide) ?_
    refine noAdjPair_cons_nonspace hpL (by decide) ?_
    exact noAdjPair_cons_nonspace hpL (by decide) hA
  have hC : noAdjPair p (k ++ dq :: ':' :: dq :: (v ++ [dq])) = true := by
    refine noAdjPair_append (noAdjPair_all_nonspace hpL hk) hB ?_
    intro a b _ hb
    have hb2 : dq = b := by simpa using hb
    exact hpR a b (by rw [← hb2]; decide)
  exact noAdjPair_cons_nonspace hpL (by decide) hC

theorem noAdjPair_fieldList {p : Char → Char → Bool}
    (hpL : ∀ x y, isPySpace x = false → p x y = false)
    (hpR : ∀ x y, isPySpace y = false → p x y = false) :
    ∀ (o : List (Str × Str)),
    (∀ kv ∈ o, (∀ c ∈ kv.1, isPySpace c = false) ∧ noAdjPair p kv.2 = true) →
    noAdjPair p (List.intercalate [','] (o.map renderField)) = true := by
  intro o
  induction o with
  | nil =>
    intro _
    rw [List.map_nil]
    rfl
  | cons kv o2 ih =>
    intro h
    obtain ⟨k, v⟩ := kv
    have hkv := h (k, v) (by simp)
    have hfield := noAdjPair_field hpL hpR hkv.1 hkv.2
    cases o2 with
    | nil =>
      rw [List.map_cons, List.map_nil, intercalate_single]
      exact hfield
    | cons kv2 o3 =>
      have hshape : List.intercalate [','] (((k, v) :: kv2 :: o3).map renderField) =
          renderField (k, v) ++
            (',' :: List.intercalate [','] ((kv2 :: o3).map renderField)) := by
        rw [List.map_cons, List.map_cons, intercalate_cons2]
        simp
      rw [hshape]
      have ihh := ih (fun x hx => h x (List.mem_cons_of_mem _ hx))
      refine noAdjPair_append hfield
        (noAdjPair_cons_nonspace hpL (by decide) ihh) ?_
      intro a b _ hb
      have hb2 : ',' = b := by simpa using hb
      exact hpR a b (by rw [← hb2]; decide)

theorem noAdjPair_obj {p : Char → Char → Bool}
    (hpL : ∀ x y, isPySpace x = false → p x y = false)
    (hpR : ∀ x y, isPySpace y = false → p x y = false) {o : List (Str × Str)}
    (h : ∀ kv ∈ o, (∀ c ∈ kv.1, isPySpace c = false) ∧ noAdjPair p kv.2 = true) :
    noAdjPair p (renderObj o) = true := by
  have hfl := noAdjPair_fieldList hpL hpR o h
  have h1 : renderObj o = obr ::
      (List.intercalate [','] (o.map renderField) ++ [cbr]) := rfl
  rw [h1]
  refine noAdjPair_cons_nonspace hpL (by decide) ?_
  refine noAdjPair_append hfl rfl ?_
  intro a b _ hb
  have hb2 : cbr = b := by simpa using hb
  exact hpR a b (by rw [← hb2]; decide)

theorem noAdjPair_arrBody {p : Char → Char → Bool}
    (hpL : ∀ x y, isPySpace x = false → p x y = false)
    (hpR : ∀ x y, isPySpace y = false → p x y = false) :
    ∀ (a : List (List (Str × Str))),
    (∀ o ∈ a, ∀ kv ∈ o, (∀ c ∈ kv.1, isPySpace c = false) ∧
      noAdjPair p kv.2 = true) →
    noAdjPair p (renderArrBody a) = true := by
  intro a
  induction a with
  | nil =>
    intro _
    rw [renderArrBody, List.map_nil]
    rfl
  | cons o a2 ih =>
    intro h
    have hobj := noAdjPair_obj hpL hpR (h o (by simp))
    cases a2 with
    | nil =>
      rw [renderArrBody, List.map_cons, List.map_nil, intercalate_single]
      exact hobj
    | cons o2 a3 =>
      have hshape : renderArrBody (o :: o2 :: a3) =
          renderObj o ++ (',' :: renderArrBody (o2 :: a3)) := by
        rw [renderArrBody, List.map_cons, List.map_cons, intercalate_cons2]
        simp [renderArrBody]
      rw [hshape]
      have ihh := ih (fun x hx => h x (List.mem_cons_of_mem _ hx))
      refine noAdjPair_append hobj
        (noAdjPair_cons_nonspace hpL (by decide) ihh) ?_
      intro a b _ hb
      have hb2 : ',' = b := by simpa using hb
      exact hpR a b (by rw [← hb2]; decide)

theorem noAdjPair_renderArr {p : Char → Char → Bool}
    (hpL : ∀ x y, isPySpace x = false → p x y = false)
    (hpR : ∀ x y, isPySpace y = false → p x y = false)
    {a : List (List (Str × Str))}
    (h : ∀ o ∈ a, ∀ kv ∈ o, (∀ c ∈ kv.1, isPySpace c = false) ∧
      noAdjPair p kv.2 = true) :
    noAdjPair p ('[' :: (renderArrBody a ++ [']'])) = true := by
  have hb := noAdjPair_arrBody hpL hpR a h
  refine noAdjPair_cons_nonspace hpL (by decide) ?_
  refine noAdjPair_append hb rfl ?_
  intro x b _ hb2
  have hb3 : ']' = b := by simpa using hb2
  exact hpR x b (by rw [← hb3]; decide)

theorem nlSpacePair_L : ∀ x y, isPySpace x = false → nlSpacePair x y = false := by
  intro x y hx
  have hxn : x ≠ '\n' := by
    intro h
    rw [h] at hx
    exact absurd hx (by decide)
  simp [nlSpacePair, hx, hxn]

theorem nlSpacePair_R : ∀ x y, isPySpace y = false → nlSpacePair x y = false := by
  intro x y hy
  have hyn : y ≠ '\n' := by
    intro h
    rw [h] at hy
    exact absurd hy (by decide)
  simp [nlSpacePair, hy, hyn]

theorem pySpacePair_L : ∀ x y, isPySpace x = false → pySpacePair x y = false := by
  intro x y hx
  simp [pySpacePair, hx]

theorem pySpacePair_R : ∀ x y, isPySpace y = false → pySpacePair x y = false := by
  intro x y hy
  simp [pySpacePair, hy]

theorem replaceNlSp_field {k v : Str} (hk : '\n' ∉ k) :
    replaceNlSp (renderField (k, v)) = renderField (k, replaceNlSp v) := by
  have h1 : renderField (k, v) = dq :: (k ++ dq :: ':' :: dq :: (v ++ [dq])) := rfl
  have h2 : renderField (k, replaceNlSp v) =
      dq :: (k ++ dq :: ':' :: dq :: (replaceNlSp v ++ [dq])) := rfl
  rw [h1, h2]
  rw [show (dq :: (k ++ dq :: ':' :: dq :: (v ++ [dq]))) =
    [dq] ++ k ++ [dq, ':', dq] ++ v ++ [dq] from by simp]
  rw [replaceNlSp_append, replaceNlSp_append, replaceNlSp_append,
    replaceNlSp_append]
  rw [replaceNlSp_eq_self hk]
  rw [show replaceNlSp [dq] = [dq] from by decide,
    show replaceNlSp [dq, ':', dq] = [dq, ':', dq] from by decide]
  simp

theorem replaceNlSp_fieldList : ∀ (o : List (Str × Str)),
    (∀ kv ∈ o, '\n' ∉ kv.1) →
    replaceNlSp (List.intercalate [','] (o.map renderField)) =
      List.intercalate [',']
        ((o.map (fun kv => (kv.1, replaceNlSp kv.2))).map renderField) := by
  intro o
  induction o with
  | nil =>
    intro _
    rw [List.map_nil, List.map_nil, List.map_nil]
    rfl
  | cons kv o2 ih =>
    intro h
    obtain ⟨k, v⟩ := kv
    have hk : '\n' ∉ k := h (k, v) (by simp)
    have ihh := ih (fun x hx => h x (List.mem_cons_of_mem _ hx))
    cases o2 with
    | nil =>
      simp only [List.map_cons, List.map_nil, intercalate_single]
      exact replaceNlSp_field hk
    | cons kv2 o3 =>
      have hshape : List.intercalate [','] (((k, v) :: kv2 :: o3).map renderField) =
          renderField (k, v) ++
            ([','] ++ List.intercalate [','] ((kv2 :: o3).map renderField)) := by
        rw [List.map_cons, List.map_cons, intercalate_cons2]
        simp
      have hshape2 : List.intercalate [',']
          ((((k, v) :: kv2 :: o3).map (fun kv => (kv.1, replaceNlSp kv.2))).map
            renderField) =
          renderField (k, replaceNlSp v) ++
            ([','] ++ List.intercalate [',']
              (((kv2 :: o3).map (fun kv => (kv.1, replaceNlSp kv.2))).map
                renderField)) := by
        rw [List.map_cons, List.map_cons, List.map_cons, List.map_cons,
          intercalate_cons2]
        simp
      rw [hshape, hshape2, replaceNlSp_append, replaceNlSp_append,
        replaceNlSp_field hk, ihh]
      rw [show replaceNlSp [','] = [','] from by decide]

theorem replaceNlSp_obj {o : List (Str × Str)} (h : ∀ kv ∈ o, '\n' ∉ kv.1) :
    replaceNlSp (renderObj o) =
      renderObj (o.map (fun kv => (kv.1, replaceNlSp kv.2))) := by
  have h1 : renderObj o = [obr] ++
      (List.intercalate [','] (o.map renderField) ++ [cbr]) := rfl
  have h2 : renderObj (o.map (fun kv => (kv.1, replaceNlSp kv.2))) = [obr] ++
      (List.intercalate [',']
        ((o.map (fun kv => (kv.1, replaceNlSp kv.2))).map renderField) ++ [cbr]) := rfl
  rw [h1, h2, replaceNlSp_append, replaceNlSp_append,
    replaceNlSp_fieldList o h]
  rw [show replaceNlSp [obr] = [obr] from by decide,
    show replaceNlSp [cbr] = [cbr] from by decide]

theorem renderArrBody_single (o : List (Str × Str)) :
    renderArrBody [o] = renderObj o := by
  rw [renderArrBody, List.map_cons, List.map_nil, intercalate_single]

theorem renderArrBody_cons_cons (o o2 : List (Str × Str))
    (a3 : List (List (Str × Str))) :
    renderArrBody (o :: o2 :: a3) =
      renderObj o ++ ([','] ++ renderArrBody (o2 :: a3)) := by
  rw [renderArrBody, List.map_cons, List.map_cons, intercalate_cons2]
  simp [renderArrBody]

theorem replaceNlSp_arrBody : ∀ (a : List (List (Str × Str))),
    (∀ o ∈ a, ∀ kv ∈ o, '\n' ∉ kv.1) →
    replaceNlSp (renderArrBody a) = renderArrBody (mapNl a) := by
  intro a
  induction a with
  | nil =>
    intro _
    rw [show mapNl [] = [] from rfl, renderArrBody, List.map_nil]
    rfl
  | cons o a2 ih =>
    intro h
    have hobj := replaceNlSp_obj (h o (by simp))
    cases a2 with
    | nil =>
      rw [show mapNl [o] = [o.map (fun kv => (kv.1, replaceNlSp kv.2))] from rfl]
      rw [renderArrBody_single, renderArrBody_single]
      exact hobj
    | cons o2 a3 =>
      have ihh := ih (fun x hx => h x (List.mem_cons_of_mem _ hx))
      have hm1 : mapNl (o :: o2 :: a3) =
          (o.map (fun kv => (kv.1, replaceNlSp kv.2))) :: mapNl (o2 :: a3) := rfl
      have hm2 : mapNl (o2 :: a3) =
          (o2.map (fun kv => (kv.1, replaceNlSp kv.2))) :: mapNl a3 := rfl
      rw [renderArrBody_cons_cons, hm1, hm2, renderArrBody_cons_cons, ← hm2]
      rw [replaceNlSp_append, replaceNlSp_append, hobj, ihh]
      rw [show replaceNlSp [','] = [','] from by decide]

theorem replaceNlSp_renderArr {a : List (List (Str × Str))}
    (h : ∀ o ∈ a, ∀ kv ∈ o, '\n' ∉ kv.1) :
    replaceNlSp (renderArr a) = renderArr (mapNl a) := by
  have h1 : renderArr a = ['['] ++ (renderArrBody a ++ [']']) := rfl
  have h2 : renderArr (mapNl a) = ['['] ++ (renderArrBody (mapNl a) ++ [']']) := rfl
  rw [h1, h2, replaceNlSp_append, replaceNlSp_append, replaceNlSp_arrBody a h]
  rw [show replaceNlSp ['['] = ['['] from by decide,
    show replaceNlSp [']'] = [']'] from by decide]

theorem mem_intercalate_comma {c : Char} : ∀ {l : List Str},
    c ∈ List.intercalate [','] l → c = ',' ∨ ∃ x ∈ l, c ∈ x := by
  intro l
  induction l with
  | nil =>
    intro h
    rw [show List.intercalate [','] ([] : List Str) = [] from rfl] at h
    simp at h
  | cons x t ih =>
    cases t with
    | nil =>
      intro h
      rw [intercalate_single] at h
      exact Or.inr ⟨x, by simp, h⟩
    | cons y t2 =>
      intro h
      rw [intercalate_cons2] at h
      rcases List.mem_append.1 h with h1 | h1
      · rcases List.mem_append.1 h1 with h2 | h2
        · exact Or.inr ⟨x, by simp, h2⟩
        · exact Or.inl (by simpa using h2)
      · rcases ih h1 with h2 | ⟨z, hz, hcz⟩
        · exact Or.inl h2
        · exact Or.inr ⟨z, List.mem_cons_of_mem _ hz, hcz⟩

theorem mem_renderField {c : Char} {kv : Str × Str} (h : c ∈ renderField kv) :
    c = dq ∨ c = ':' ∨ c ∈ kv.1 ∨ c ∈ kv.2 := by
  obtain ⟨k, v⟩ := kv
  have hsh : renderField (k, v) = dq :: (k ++ dq :: ':' :: dq :: (v ++ [dq])) := rfl
  rw [hsh] at h
  rcases List.mem_cons.1 h with h1 | h1
  · exact Or.inl h1
  rcases List.mem_append.1 h1 with h2 | h2
  · exact Or.inr (Or.inr (Or.inl h2))
  rcases List.mem_cons.1 h2 with h3 | h3
  · exact Or.inl h3
  rcases List.mem_cons.1 h3 with h4 | h4
  · exact Or.inr (Or.inl h4)
  rcases List.mem_cons.1 h4 with h5 | h5
  · exact Or.inl h5
  rcases List.mem_append.1 h5 with h6 | h6
  · exact Or.inr (Or.inr (Or.inr h6))
  · exact Or.inl (by simpa using h6)

theorem mem_renderObj {c : Char} {o : List (Str × Str)} (h : c ∈ renderObj o) :
    c = obr ∨ c = cbr ∨ c = ',' ∨ ∃ kv ∈ o, c ∈ renderField kv := by
  have hsh : renderObj o = obr ::
      (List.intercalate [','] (o.map renderField) ++ [cbr]) := rfl
  rw [hsh] at h
  rcases List.mem_cons.1 h with h1 | h1
  · exact Or.inl h1
  rcases List.mem_append.1 h1 with h2 | h2
  · rcases mem_intercalate_comma h2 with h3 | ⟨x, hx, hcx⟩
    · exact Or.inr (Or.inr (Or.inl h3))
    · rcases List.mem_map.1 hx with ⟨kv, hkv, hkvx⟩
      exact Or.inr (Or.inr (Or.inr ⟨kv, hkv, hkvx ▸ hcx⟩))
  · exact Or.inr (Or.inl (by simpa using h2))

theorem mem_renderArrBody {c : Char} {a : List (List (Str × Str))}
    (h : c ∈ renderArrBody a) :
    c = ',' ∨ ∃ o ∈ a, c ∈ renderObj o := by
  rcases mem_intercalate_comma h with h1 | ⟨x, hx, hcx⟩
  · exact Or.inl h1
  · rcases List.mem_map.1 hx with ⟨o, ho, hox⟩
    exact Or.inr ⟨o, ho, hox ▸ hcx⟩

theorem wordChar_goodBody {c : Char} (h : wordChar c = true) : goodBodyChar c = true := by
  simp [goodBodyChar, h]

theorem goodValChar_goodBody {c : Char} (h : goodValChar c = true) :
    goodBodyChar c = true := by
  simp only [goodValChar, Bool.or_eq_true, decide_eq_true_eq] at h
  rcases h with (h | h) | h
  · exact wordChar_goodBody h
  · rw [h]; decide
  · rw [h]; decide

theorem goodBody_arrBody {a : List (List (Str × Str))}
    (h : ∀ o ∈ a, ∀ kv ∈ o, (∀ c ∈ kv.1, wordChar c = true) ∧
      (∀ c ∈ kv.2, goodValChar c = true)) :
    ∀ c ∈ renderArrBody a, goodBodyChar c = true := by
  intro c hc
  rcases mem_renderArrBody hc with h1 | ⟨o, ho, hco⟩
  · rw [h1]; decide
  rcases mem_renderObj hco with h1 | h1 | h1 | ⟨kv, hkv, hckv⟩
  · rw [h1]; decide
  · rw [h1]; decide
  · rw [h1]; decide
  rcases mem_renderField hckv with h1 | h1 | h1 | h1
  · rw [h1]; decide
  · rw [h1]; decide
  · exact wordChar_goodBody ((h o ho kv hkv).1 c h1)
  · exact goodValChar_goodBody ((h o ho kv hkv).2 c h1)

theorem headc_arrBody (a : List (List (Str × Str))) :
    ∀ c, (renderArrBody a).head? = some c → c ≠ 'c' := by
  intro c hc
  cases a with
  | nil =>
    rw [show renderArrBody [] = [] from by
      rw [renderArrBody, List.map_nil]; rfl] at hc
    simp at hc
  | cons o a2 =>
    obtain ⟨Y, hY⟩ := renderArrBody_cons_head o a2
    rw [hY] at hc
    have hc2 : obr = c := by simpa using hc
    rw [← hc2]
    decide

theorem gemini_sanitize_goodW {a : List (List (Str × Str))} (h : goodArrW a = true) :
    gemini_sanitize (fenceWrap (renderArr a)) =
      collapseSpaces (renderArr (mapNl a)) := by
  have hobj : ∀ o ∈ a, ∀ kv ∈ o, goodKey kv.1 = true ∧ goodValW kv.2 = true := by
    intro o ho kv hkv
    have h1 := List.all_eq_true.1 h o ho
    simp only [goodObjW, Bool.and_eq_true] at h1
    have h2 := List.all_eq_true.1 h1.2 kv hkv
    simpa using h2
  have hB : ∀ o ∈ a, ∀ kv ∈ o, dq ∉ kv.1 ∧ '\n' ∉ kv.1 ∧ dq ∉ kv.2 := by
    intro o ho kv hkv
    obtain ⟨h1, h2⟩ := hobj o ho kv hkv
    exact ⟨goodKey_not_dq h1, goodKey_not_nl h1, goodValW_not_dq h2⟩
  have hgood : ∀ c ∈ renderArrBody a, goodBodyChar c = true := by
    refine goodBody_arrBody ?_
    intro o ho kv hkv
    obtain ⟨h1, h2⟩ := hobj o ho kv hkv
    refine ⟨fun c hc => List.all_eq_true.1 h1 c hc, ?_⟩
    simp only [goodValW, Bool.and_eq_true] at h2
    exact fun c hc => List.all_eq_true.1 h2.1 c hc
  have hnlin := NlInsideB_renderArr hB
  have hadj : noAdjPair nlSpacePair ('[' :: (renderArrBody a ++ [']'])) = true := by
    refine noAdjPair_renderArr nlSpacePair_L nlSpacePair_R ?_
    intro o ho kv hkv
    obtain ⟨h1, h2⟩ := hobj o ho kv hkv
    refine ⟨goodKey_nonspace h1, ?_⟩
    simp only [goodValW, Bool.and_eq_true] at h2
    exact h2.2
  have hmain := gemini_sanitize_fenced hgood hnlin hadj (headc_arrBody a)
  have hra : renderArr a = '[' :: (renderArrBody a ++ [']']) := rfl
  rw [hra, hmain, ← hra, replaceNlSp_renderArr (fun o ho kv hkv => (hB o ho kv hkv).2.1)]

theorem goodArrW_of_goodArr {a : List (List (Str × Str))} (h : goodArr a = true) :
    goodArrW a = true := by
  refine List.all_eq_true.2 ?_
  intro o ho
  have h1 := List.all_eq_true.1 h o ho
  simp only [goodObj, Bool.and_eq_true] at h1
  simp only [goodObjW, Bool.and_eq_true]
  refine ⟨h1.1, List.all_eq_true.2 ?_⟩
  intro kv hkv
  have h2 := List.all_eq_true.1 h1.2 kv hkv
  simp only [Bool.and_eq_true, goodVal] at h2
  simp only [Bool.and_eq_true]
  exact ⟨h2.1, h2.2.1⟩

theorem dq_not_mem_replaceNlSp {v : Str} (h : dq ∉ v) : dq ∉ replaceNlSp v := by
  intro hm
  rcases List.mem_map.1 hm with ⟨x, hx, hfx⟩
  by_cases hxn : x = '\n'
  · rw [if_pos hxn] at hfx
    exact absurd hfx (by decide)
  · rw [if_neg hxn] at hfx
    exact h (hfx ▸ hx)

theorem mapNl_parse_ok {a : List (List (Str × Str))} (h : goodArr a = true) :
    ∀ o ∈ mapNl a, o ≠ [] ∧ ∀ kv ∈ o, dq ∉ kv.1 ∧ dq ∉ kv.2 := by
  intro o2 ho2
  rcases List.mem_map.1 ho2 with ⟨o, ho, hoo⟩
  have h1 := List.all_eq_true.1 h o ho
  simp only [goodObj, Bool.and_eq_true] at h1
  constructor
  · rw [← hoo]
    intro hx
    rw [List.map_eq_nil] at hx
    rw [hx] at h1
    simp [List.isEmpty] at h1
  · intro kv2 hkv2
    rw [← hoo] at hkv2
    rcases List.mem_map.1 hkv2 with ⟨kv, hkv, hkvv⟩
    have h2 := List.all_eq_true.1 h1.2 kv hkv
    simp only [Bool.and_eq_true, goodVal, goodValW] at h2
    rw [← hkvv]
    exact ⟨goodKey_not_dq h2.1, dq_not_mem_replaceNlSp (by
      intro hm
      exact goodValChar_ne_dq (List.all_eq_true.1 h2.2.1.1 dq hm) rfl)⟩

/-- Claim C9 (amended): for a markdown-fenced response wrapping a
rendered JSON array of flat string-valued records whose values may
embed literal newlines (and whose text never puts two whitespace
characters side by side), the extract-stage sanitization
(`gemini_sanitize`, i.e. strip, citation and fence removal, bracket
trimming and `clean_json_string`) returns exactly the single-line
render in which each embedded newline has become one space, and the
strict parse of that output yields the same logical records as the
strict parse of the equivalent single-line JSON.  Without the
no-adjacent-whitespace proviso the spec's round-trip fails: the
sanitizer's final space-collapsing rewrites value-internal space runs
(see the counterexample). -/
theorem c9_sanitizer_roundtrip_amended (a : List (List (Str × Str)))
    (h : goodArr a = true) :
    gemini_sanitize (fenceWrap (renderArr a)) = renderArr (mapNl a) ∧
    parseArr (gemini_sanitize (fenceWrap (renderArr a))) = some (mapNl a) ∧
    parseArr (renderArr (mapNl a)) = some (mapNl a) := by
  have hW := goodArrW_of_goodArr h
  have h1 := gemini_sanitize_goodW hW
  have hobj : ∀ o ∈ a, ∀ kv ∈ o, goodKey kv.1 = true ∧ goodVal kv.2 = true := by
    intro o ho kv hkv
    have h2 := List.all_eq_true.1 h o ho
    simp only [goodObj, Bool.and_eq_true] at h2
    have h3 := List.all_eq_true.1 h2.2 kv hkv
    simpa using h3
  have hpy : noAdjPair pySpacePair ('[' :: (renderArrBody a ++ [']'])) = true := by
    refine noAdjPair_renderArr pySpacePair_L pySpacePair_R ?_
    intro o ho kv hkv
    obtain ⟨h2, h3⟩ := hobj o ho kv hkv
    refine ⟨goodKey_nonspace h2, ?_⟩
    simp only [goodVal, Bool.and_eq_true] at h3
    exact h3.2
  have hkeys : ∀ o ∈ a, ∀ kv ∈ o, '\n' ∉ kv.1 :=
    fun o ho kv hkv => goodKey_not_nl (hobj o ho kv hkv).1
  have hcollapse : collapseSpaces (renderArr (mapNl a)) = renderArr (mapNl a) := by
    have hsp : noAdjPair spacePair (replaceNlSp (renderArr a)) = true :=
      noAdjPair_replaceNlSp hpy
    rw [replaceNlSp_renderArr hkeys] at hsp
    exact collapseSpaces_id hsp
  have hfirst : gemini_sanitize (fenceWrap (renderArr a)) = renderArr (mapNl a) := by
    rw [h1, hcollapse]
  have hparse : parseArr (renderArr (mapNl a)) = some (mapNl a) :=
    parseArr_render (mapNl_parse_ok h)
  exact ⟨hfirst, by rw [hfirst, hparse], hparse⟩

/-- An input of the claim's family whose value holds a double space
away from its newline: the sanitizer's space collapsing changes it. -/
def c9BadArr : List (List (Str × Str)) :=
  [[(['k'], ['a', '\n', 'b', ' ', ' ', 'c'])]]

/-- A strict-grammar record array with a newline inside its value. -/
def c9GoodArr : List (List (Str × Str)) :=
  [[(['u', 'r', 'l'], ['h', 't', 't', 'p']),
    (['d', 'e', 's', 'c'], ['a', '\n', 'b', ' ', 'c'])]]

/-- Claim C9 is refuted on this member of its input family: a fenced
valid JSON array whose only value embeds a literal newline and a
two-space run.  The sanitizer collapses the space run, so the strict
parse of the sanitized text yields a record different from the one the
equivalent single-line JSON parses to. -/
theorem c9_sanitizer_roundtrip_counterexample :
    goodArrW c9BadArr = true ∧
    parseArr (gemini_sanitize (fenceWrap (renderArr c9BadArr))) =
      some [[(['k'], ['a', ' ', 'b', ' ', 'c'])]] ∧
    mapNl c9BadArr = [[(['k'], ['a', ' ', 'b', ' ', ' ', 'c'])]] ∧
    parseArr (renderArr (mapNl c9BadArr)) = some (mapNl c9BadArr) ∧
    parseArr (gemini_sanitize (fenceWrap (renderArr c9BadArr))) ≠
      some (mapNl c9BadArr) := by
  have hW : goodArrW c9BadArr = true := by decide
  have h1 := gemini_sanitize_goodW hW
  refine ⟨hW, ?_, by decide, by decide, ?_⟩
  · rw [h1]
    decide
  · rw [h1]
    decide

/-- Witness for the amended claim C9 at a concrete two-field record
with an embedded newline, hypotheses discharged by evaluation. -/
theorem c9_sanitizer_roundtrip_amended_witness :
    goodArr c9GoodArr = true ∧
    (gemini_sanitize (fenceWrap (renderArr c9GoodArr)) = renderArr (mapNl c9GoodArr) ∧
     parseArr (gemini_sanitize (fenceWrap (renderArr c9GoodArr))) =
       some (mapNl c9GoodArr) ∧
     parseArr (renderArr (mapNl c9GoodArr)) = some (mapNl c9GoodArr)) :=
  ⟨by decide, c9_sanitizer_roundtrip_amended c9GoodArr (by decide)⟩
